import Mathlib

/-!
Verification of the `space_time` space-filling-curve library.

The Rust sources are shallowly embedded below:

* machine integers (`u64`, `u32`) are modelled as `ℕ`; every operation that
  can wrap in Rust (`wrapping_shl`, saturating casts, `64 - precision`) is
  modelled with an explicit `% 2 ^ 64` (resp. clamping);
* `f64` coordinates of the curve facades are modelled as `ℚ`.  All the
  floating-point operations the embedded code performs on them (halving,
  comparison, subtraction/division by exactly representable values) are
  exact in binary64 on the dyadic values that arise inside the tree walks,
  and the concrete inputs evaluated below are chosen so that the `f64`
  computation of the source is exact and hence agrees with `ℚ`;
* the `while` loops of the refiners are written as fuel recursion; the fuel
  supplied (`2 ^ 128`) exceeds any physically executable iteration count,
  and on fuel exhaustion the model performs the refiners' own `bottom_out`
  (which the real loop performs on every budget stop), so all stated
  invariants hold for every fuel value;
* Rust `panic!` / `assert!` is modelled by `Option`: `none` is an aborted
  call.

The file has two parts: first all definitions (the embedding), then all
theorems about them.
-/

set_option maxHeartbeats 4000000
set_option maxRecDepth 100000

namespace SpaceTime

/-! ## Definitions -/

/-! ### Shared helpers for the bit pipelines -/

/-- One mask-shift-or step of the `split` pipelines. -/
def stepOr (m s x : ℕ) : ℕ := (x ||| (x <<< s)) &&& m

/-- One mask-shift-xor step of the `combine` pipelines. -/
def stepXor (m s x : ℕ) : ℕ := (x ^^^ (x >>> s)) &&& m

/-- The unmasked final shift-xor step of the `Z3` `combine` pipeline. -/
def stepXorN (s x : ℕ) : ℕ := x ^^^ (x >>> s)

/-- Models `u64::wrapping_shl` (the shift amount is taken mod 64, the result
mod `2 ^ 64`). -/
def wshl (x s : ℕ) : ℕ := (x <<< (s % 64)) % 2 ^ 64

/-- Models wrapping `u64` subtraction `a - b` (used for `64 - precision`,
which Rust computes in `u64` arithmetic). -/
def wsub64 (a b : ℕ) : ℤ := ((a : ℤ) - (b : ℤ)).emod (2 ^ 64)

/-! ### `ZRange` (`src/zorder/z_range.rs`) and `IndexRange`
(`src/index_range.rs`) -/

/-- Embeds the struct `ZRange`: a z-index aware rectangle given by its two
corner z-values. -/
structure ZRange where
  min : ℕ
  max : ℕ
deriving DecidableEq, Repr

/-- Embeds the `IndexRange` trait objects: `CoveredRange` is
`contained = true`, `OverlappingRange` is `contained = false`. -/
structure IndexRange where
  lower : ℕ
  upper : ℕ
  contained : Bool
deriving DecidableEq, Repr

/-- Embeds the `Ord for dyn IndexRange` instance: compare `lower`, then
`upper`; the flag is ignored. -/
def IndexRange.le (a b : IndexRange) : Prop :=
  a.lower < b.lower ∨ (a.lower = b.lower ∧ a.upper ≤ b.upper)

instance : DecidableRel IndexRange.le := fun a b => by
  unfold IndexRange.le
  infer_instance

instance : IsTotal IndexRange IndexRange.le :=
  ⟨by
    intro a b
    unfold IndexRange.le
    omega⟩

instance : IsTrans IndexRange IndexRange.le :=
  ⟨by
    intro a b c
    unfold IndexRange.le
    omega⟩

/-- Embeds `ranges.sort()` (a stable sort by the `Ord` instance above).  A
stable sort is extensionally determined by the comparator, so the model uses
insertion sort, which is stable. -/
def sortRanges (l : List IndexRange) : List IndexRange :=
  List.insertionSort IndexRange.le l

/-- Embeds the merge of two overlapping/adjacent ranges inside the
sort-and-merge fold shared by `ZN::zranges`, `XZ2SFC::ranges_impl` and
`XZ3SFC::ranges_impl`: keep `cur.lower()`, take the max upper, and the
result is a `CoveredRange` iff both inputs were. -/
def mergeTwo (cur next : IndexRange) : IndexRange :=
  ⟨cur.lower, Nat.max cur.upper next.upper, cur.contained && next.contained⟩

/-- The fold of the merge stage, with `cur` the current accumulator. -/
def mergeLoop : IndexRange → List IndexRange → List IndexRange
  | cur, [] => [cur]
  | cur, r :: rest =>
    if r.lower ≤ cur.upper + 1 then
      mergeLoop (mergeTwo cur r) rest
    else
      cur :: mergeLoop r rest

/-- Embeds the whole merge fold (on an already sorted list). -/
def mergeRanges : List IndexRange → List IndexRange
  | [] => []
  | r :: rest => mergeLoop r rest

/-! ### The `Z2` bit-interleaving codec (`src/zorder/z_2.rs`) -/

namespace Z2

/-- Embeds `Z2::MAX_MASK`. -/
def MAX_MASK : ℕ := 0x7fffffff

/-- Embeds `<Z2 as ZN>::split`: the 64-bit magic-mask pipeline. -/
def split (value : ℕ) : ℕ :=
  let x0 := value &&& MAX_MASK
  let x1 := (x0 ||| (x0 <<< 32)) &&& 0x00000000ffffffff
  let x2 := (x1 ||| (x1 <<< 16)) &&& 0x0000ffff0000ffff
  let x3 := (x2 ||| (x2 <<< 8)) &&& 0x00ff00ff00ff00ff
  let x4 := (x3 ||| (x3 <<< 4)) &&& 0x0f0f0f0f0f0f0f0f
  let x5 := (x4 ||| (x4 <<< 2)) &&& 0x3333333333333333
  (x5 ||| (x5 <<< 1)) &&& 0x5555555555555555

/-- Embeds `<Z2 as ZN>::combine`. -/
def combine (z : ℕ) : ℕ :=
  let x0 := z &&& 0x5555555555555555
  let x1 := (x0 ^^^ (x0 >>> 1)) &&& 0x3333333333333333
  let x2 := (x1 ^^^ (x1 >>> 2)) &&& 0x0f0f0f0f0f0f0f0f
  let x3 := (x2 ^^^ (x2 >>> 4)) &&& 0x00ff00ff00ff00ff
  let x4 := (x3 ^^^ (x3 >>> 8)) &&& 0x0000ffff0000ffff
  (x4 ^^^ (x4 >>> 16)) &&& 0x00000000ffffffff

/-- Bit origin map of `Z2.split`: output bit `t` is input bit `t / 2` when
`t` is an even position whose half is below 31, nothing otherwise. -/
def sigS (t : ℕ) : Option ℕ := if t % 2 = 0 ∧ t / 2 < 31 then some (t / 2) else none

/-- Bit origin map of `Z2.combine`: output bit `t` is input bit `2 * t`. -/
def sigC (t : ℕ) : Option ℕ := if t < 32 then some (2 * t) else none

/-- Embeds the z-value built by `Z2::new`, i.e.
`split(x) | split(y) << 1`, without the assertions. -/
def zOf (x y : ℕ) : ℕ := split x ||| (split y <<< 1)

/-- Embeds `Z2::new`, whose two `assert!`s abort on a coordinate above
`MAX_MASK`. -/
def new (x y : ℕ) : Option ℕ :=
  if x ≤ MAX_MASK ∧ y ≤ MAX_MASK then some (zOf x y) else none

/-- Embeds `Z2::dim`. -/
def dim (i z : ℕ) : ℕ := combine (z >>> i)

/-- Embeds `Z2::decode`. -/
def decode (z : ℕ) : ℕ × ℕ := (dim 0 z, dim 1 z)

/-- Embeds `<Z2 as ZN>::contains`: user-space containment of the decoded
point of `value` in the decoded box of `range`. -/
def contains (range : ZRange) (value : ℕ) : Bool :=
  decide (dim 0 range.min ≤ dim 0 value ∧ dim 0 value ≤ dim 0 range.max ∧
    dim 1 range.min ≤ dim 1 value ∧ dim 1 value ≤ dim 1 range.max)

/-- Embeds the trait-default `ZN::contains_value`. -/
def containsValue (range value : ZRange) : Bool :=
  contains range value.min && contains range value.max

/-- Embeds `Z2::partial_overlaps`. -/
def partialOverlaps (a1 a2 b1 b2 : ℕ) : Bool :=
  decide (Nat.max a1 b1 ≤ Nat.min a2 b2)

/-- Embeds `<Z2 as ZN>::overlaps`. -/
def overlaps (range value : ZRange) : Bool :=
  partialOverlaps (dim 0 range.min) (dim 0 range.max) (dim 0 value.min) (dim 0 value.max) &&
    partialOverlaps (dim 1 range.min) (dim 1 range.max) (dim 1 value.min) (dim 1 value.max)

/-- The user-space box predicate the specification speaks about: the decoded
coordinates of `z` lie inside the decoded per-dimension bounds of `b`. -/
def inBox (b : ZRange) (z : ℕ) : Prop :=
  ∀ i < 2, dim i b.min ≤ dim i z ∧ dim i z ≤ dim i b.max

instance (b : ZRange) (z : ℕ) : Decidable (inBox b z) := by
  unfold inBox
  infer_instance

end Z2

/-! ### The `Z3` bit-interleaving codec (`src/zorder/z_3.rs`) -/

namespace Z3

/-- Embeds `Z3::MAX_MASK`. -/
def MAX_MASK : ℕ := 0x1fffff

/-- Embeds `<Z3 as ZN>::split`. -/
def split (value : ℕ) : ℕ :=
  let x0 := value &&& MAX_MASK
  let x1 := (x0 ||| (x0 <<< 32)) &&& 0x001f00000000ffff
  let x2 := (x1 ||| (x1 <<< 16)) &&& 0x001f0000ff0000ff
  let x3 := (x2 ||| (x2 <<< 8)) &&& 0x100f00f00f00f00f
  let x4 := (x3 ||| (x3 <<< 4)) &&& 0x10c30c30c30c30c3
  (x4 ||| (x4 <<< 2)) &&& 0x1249249249249249

/-- The `u64` mask pipeline inside `<Z3 as ZN>::combine`, before the final
`try_into::<u32>()`.  Note that, unlike the geomesa original, the last step
`x = x ^ (x >> 32)` applies no mask, so bits 48–52 of the intermediate
survive into the result. -/
def combineBits (z : ℕ) : ℕ :=
  let x0 := z &&& 0x1249249249249249
  let x1 := (x0 ^^^ (x0 >>> 2)) &&& 0x10c30c30c30c30c3
  let x2 := (x1 ^^^ (x1 >>> 4)) &&& 0x100f00f00f00f00f
  let x3 := (x2 ^^^ (x2 >>> 8)) &&& 0x001f0000ff0000ff
  let x4 := (x3 ^^^ (x3 >>> 16)) &&& 0x001f00000000ffff
  x4 ^^^ (x4 >>> 32)

/-- Embeds `<Z3 as ZN>::combine` including its final
`try_into().expect("values were chosen so x fits into a u32")`, which
panics (`none`) when the pipeline value does not fit in a `u32`. -/
def combine (z : ℕ) : Option ℕ :=
  if combineBits z < 2 ^ 32 then some (combineBits z) else none

/-- Embeds the z-value built by `Z3::new`, without the assertions. -/
def zOf (x y z : ℕ) : ℕ := split x ||| (split y <<< 1) ||| (split z <<< 2)

/-- Embeds `Z3::new`, whose `assert!`s abort on a coordinate above
`MAX_MASK`. -/
def new (x y z : ℕ) : Option ℕ :=
  if x ≤ MAX_MASK ∧ y ≤ MAX_MASK ∧ z ≤ MAX_MASK then some (zOf x y z) else none

/-- Embeds `Z3::d0`/`d1`/`d2` via the common shift. -/
def dim (i z : ℕ) : Option ℕ := combine (z >>> i)

/-- Embeds `Z3::decode`: the first dimension whose `combine` panics aborts
the call. -/
def decode (z : ℕ) : Option (ℕ × ℕ × ℕ) :=
  match dim 0 z, dim 1 z, dim 2 z with
  | some a, some b, some c => some (a, b, c)
  | _, _, _ => none

end Z3

/-! ### The generic `ZN` refiner (`src/zorder/z_n.rs`)

The `ZN` trait is embedded as a record of the per-type operations the
algorithm calls (`DIMENSIONS`, `TOTAL_BITS`, `contains_value`, `overlaps`);
`QUADRANTS = 2 ^ DIMENSIONS` as in the trait default. -/

structure ZNOps where
  dims : ℕ
  totalBits : ℕ
  containsV : ZRange → ZRange → Bool
  overlapsV : ZRange → ZRange → Bool

/-- Embeds the trait constant `QUADRANTS`. -/
def ZNOps.quadrants (O : ZNOps) : ℕ := 2 ^ O.dims

/-- Embeds the struct `ZPrefix` (field `prefix` is called `pfx` here). -/
structure LcpInfo where
  pfx : ℕ
  precision : ℕ
deriving DecidableEq, Repr

/-- The `while` loop of `ZN::longest_common_prefix`, with `bitShift` the
loop variable.  Comparing all values against `values[0]` is the same as the
source's comparison of `values[1..]` against `head`.  The fuel 64 exceeds
the at most `TOTAL_BITS / DIMENSIONS` iterations possible. -/
def lcpLoop (O : ZNOps) (values : List ℕ) (v0 : ℕ) : ℕ → ℕ → ℕ
  | 0, bitShift => bitShift
  | fuel + 1, bitShift =>
    if values.all (fun v => v >>> bitShift == v0 >>> bitShift) then
      let bs := bitShift - O.dims
      if bs = 0 then 0 else lcpLoop O values v0 fuel bs
    else bitShift

/-- Embeds `ZN::longest_common_prefix` (which `assert!`s that `values` is
nonempty; callers pass `v0 = values[0]`). -/
def lcp (O : ZNOps) (values : List ℕ) (v0 : ℕ) : LcpInfo :=
  let bs := lcpLoop O values v0 64 (O.totalBits - O.dims) + O.dims
  { pfx := v0 &&& wshl (2 ^ 64 - 1) bs, precision := 64 - bs }

/-- Embeds the free function `check_value` of `z_n.rs`: classify the
sub-cube `quadrant` of `pfx` at `offset` as covered, pending, or discarded.
`st` is the pair (ranges, remaining). -/
def checkValue (O : ZNOps) (pfx quadrant offset : ℕ) (zbounds : List ZRange)
    (precision : ℕ) (st : List IndexRange × List (Option (ℕ × ℕ))) :
    List IndexRange × List (Option (ℕ × ℕ)) :=
  let mn := pfx ||| wshl quadrant offset
  let mx := mn ||| (wshl 1 offset - 1)
  let qr : ZRange := ⟨mn, mx⟩
  if zbounds.any (fun b => O.containsV b qr) ||
      decide ((offset : ℤ) < wsub64 64 precision) then
    (st.1 ++ [⟨mn, mx, true⟩], st.2)
  else if zbounds.any (fun b => O.overlapsV b qr) then
    (st.1, st.2 ++ [some (mn, mx)])
  else st

/-- Embeds the free function `bottom_out`: drain the pending queue into
`Overlapping` ranges, skipping the level terminator. -/
def bottomOut (ranges : List IndexRange) (remaining : List (Option (ℕ × ℕ))) :
    List IndexRange :=
  ranges ++ remaining.filterMap (fun e => e.map fun p => ⟨p.1, p.2, false⟩)

/-- The descent `loop` of `ZN::zranges`.  The queue element `none` is the
`LEVEL_TERMINATOR` `(None, None)`; items are `some (min, max)`.  On fuel
exhaustion (unreachable with the fuel supplied) the model bottoms out.  The
source's dead `offset -= DIMENSIONS` after a bottom-out (whose result is
never read, and which would wrap at offset 0) is omitted. -/
def zrangesLoop (O : ZNOps) (zbounds : List ZRange)
    (precision maxRanges maxRecurse : ℕ) :
    ℕ → ℕ → ℕ → List IndexRange → List (Option (ℕ × ℕ)) → List IndexRange
  | 0, _, _, ranges, remaining => bottomOut ranges remaining
  | fuel + 1, offset, level, ranges, remaining =>
    match remaining with
    | [] => ranges
    | none :: rest =>
      if rest.isEmpty then ranges
      else if offset = 0 ∨ level + 1 ≥ maxRecurse then bottomOut ranges rest
      else
        zrangesLoop O zbounds precision maxRanges maxRecurse fuel
          (offset - O.dims) (level + 1) ranges (rest ++ [none])
    | some (mn, _) :: rest =>
      let st := (List.range O.quadrants).foldl
        (fun st q => checkValue O mn q offset zbounds precision st) (ranges, rest)
      if st.1.length + st.2.length > maxRanges then bottomOut st.1 st.2
      else if st.2.isEmpty then st.1
      else zrangesLoop O zbounds precision maxRanges maxRecurse fuel offset level st.1 st.2

/-- Fuel for the loop models: far beyond any physically executable
iteration count. -/
def FUEL : ℕ := 2 ^ 128

/-- Embeds the constant `DEFAULT_RECURSE`. -/
def DEFAULT_RECURSE : ℕ := 7

/-- Embeds `usize::max_value()` on a 64-bit target. -/
def USIZE_MAX : ℕ := 2 ^ 64 - 1

/-- Embeds `ZN::zranges`.  `none` is returned exactly when
`longest_common_prefix` would panic on an empty `zbounds`. -/
def zranges (O : ZNOps) (zbounds : List ZRange) (precision : ℕ)
    (maxRanges maxRecurse : Option ℕ) : Option (List IndexRange) :=
  match zbounds with
  | [] => none
  | b0 :: _ =>
    let values := zbounds.flatMap (fun b => [b.min, b.max])
    let info := lcp O values b0.min
    let offset := 64 - info.precision
    let st := checkValue O info.pfx 0 offset zbounds precision ([], [])
    let pre := zrangesLoop O zbounds precision (maxRanges.getD USIZE_MAX)
      (maxRecurse.getD DEFAULT_RECURSE) FUEL (offset - O.dims) 0 st.1 (st.2 ++ [none])
    some (mergeRanges (sortRanges pre))

/-- Embeds `ZN::zranges_default`. -/
def zrangesDefault (O : ZNOps) (zbounds : List ZRange) : Option (List IndexRange) :=
  zranges O zbounds 64 (some USIZE_MAX) (some DEFAULT_RECURSE)

/-- The `ZN` operations of `Z2`. -/
def Z2ops : ZNOps :=
  { dims := 2, totalBits := 62,
    containsV := Z2.containsValue, overlapsV := Z2.overlaps }

/-! ### The point-curve facade `ZCurve2D` (`src/zorder/z_curve_2d.rs`) -/

/-- Embeds the hint enum `RangeComputeHints`. -/
inductive RangeComputeHints where
  | MaxRecurse (n : ℕ)
deriving DecidableEq, Repr

/-- Embeds the struct `ZCurve2D`, with `f64` bounds modelled as `ℚ`. -/
structure ZCurve2D where
  resolution : ℕ
  x_min : ℚ
  x_max : ℚ
  y_min : ℚ
  y_max : ℚ

namespace ZCurve2D

/-- Embeds the associated constant `MAX_RECURSION`. -/
def MAX_RECURSION : ℕ := 32

/-- Embeds `ZCurve2D::default()`. -/
def default : ZCurve2D := ⟨1024, -180, 180, -90, 90⟩

/-- Embeds `ZCurve2D::cell_width`. -/
def cell_width (c : ZCurve2D) : ℚ := (c.x_max - c.x_min) / (c.resolution : ℚ)

/-- Embeds `ZCurve2D::cell_height`. -/
def cell_height (c : ZCurve2D) : ℚ := (c.y_max - c.y_min) / (c.resolution : ℚ)

/-- Models the Rust saturating `f64 as u32` cast: truncate toward zero and
clamp into `[0, u32::MAX]`.  (For negative inputs truncation and flooring
agree after the clamp to 0, so `Int.floor` is used.) -/
def ratToU32 (q : ℚ) : ℕ := Nat.min (Int.toNat ⌊q⌋) (2 ^ 32 - 1)

/-- Embeds `ZCurve2D::map_to_col`. -/
def map_to_col (c : ZCurve2D) (x : ℚ) : ℕ := ratToU32 ((x - c.x_min) / c.cell_width)

/-- Embeds `ZCurve2D::map_to_row`. -/
def map_to_row (c : ZCurve2D) (y : ℚ) : ℕ := ratToU32 ((c.y_max - y) / c.cell_height)

/-- Embeds `ZCurve2D::index` (`Z2::new(col, row).z()`); `none` is the abort
of the `Z2::new` assertions. -/
def index (c : ZCurve2D) (x y : ℚ) : Option ℕ :=
  Z2.new (c.map_to_col x) (c.map_to_row y)

/-- Embeds `ZCurve2D::ranges`.  `find_map` with a closure that always
returns `Some` yields the first hint, clamped to `MAX_RECURSION`. -/
def ranges (c : ZCurve2D) (x_min y_min x_max y_max : ℚ)
    (hints : List RangeComputeHints) : Option (List IndexRange) :=
  match Z2.new (c.map_to_col x_min) (c.map_to_row y_max),
      Z2.new (c.map_to_col x_max) (c.map_to_row y_min) with
  | some mn, some mx =>
    let max_recurse := hints.head?.map fun h =>
      match h with
      | RangeComputeHints.MaxRecurse m =>
        if m > MAX_RECURSION then MAX_RECURSION else m
    zranges Z2ops [⟨mn, mx⟩] 64 none max_recurse
  | _, _ => none

end ZCurve2D

/-! ### The region curve `XZ2SFC` (`src/xzorder/xz2_sfc.rs`) -/

/-- Embeds the private struct `QueryWindow` of `xz2_sfc.rs`. -/
structure QueryWindow2 where
  xmin : ℚ
  ymin : ℚ
  xmax : ℚ
  ymax : ℚ
deriving DecidableEq, Repr

/-- Embeds the private struct `XElement` of `xz2_sfc.rs`. -/
structure XElement2 where
  xmin : ℚ
  ymin : ℚ
  xmax : ℚ
  ymax : ℚ
  length : ℚ
deriving DecidableEq, Repr

namespace XElement2

/-- Embeds `XElement::xext`. -/
def xext (e : XElement2) : ℚ := e.xmax + e.length

/-- Embeds `XElement::yext`. -/
def yext (e : XElement2) : ℚ := e.ymax + e.length

/-- Embeds `XElement::is_contained` (containment of the extended element in
the query window). -/
def is_contained (e : XElement2) (w : QueryWindow2) : Bool :=
  decide (w.xmin ≤ e.xmin ∧ w.ymin ≤ e.ymin ∧ w.xmax ≥ e.xext ∧ w.ymax ≥ e.yext)

/-- Embeds `XElement::overlaps`. -/
def overlaps (e : XElement2) (w : QueryWindow2) : Bool :=
  decide (w.xmax ≥ e.xmin ∧ w.ymax ≥ e.ymin ∧ w.xmin ≤ e.xext ∧ w.ymin ≤ e.yext)

/-- Embeds `XElement::children` (in source order). -/
def children (e : XElement2) : List XElement2 :=
  let x_center := (e.xmin + e.xmax) / 2
  let y_center := (e.ymin + e.ymax) / 2
  let len := e.length / 2
  [⟨e.xmin, e.ymin, x_center, y_center, len⟩,
    ⟨x_center, e.ymin, e.xmax, y_center, len⟩,
    ⟨e.xmin, y_center, x_center, e.ymax, len⟩,
    ⟨x_center, y_center, e.xmax, e.ymax, len⟩]

/-- Embeds `XElement::level_one_elements`. -/
def level_one_elements : List XElement2 := children ⟨0, 0, 1, 1, 1⟩

end XElement2

/-- Embeds the struct `XZ2SFC`, `f64` bounds as `ℚ`. -/
structure XZ2SFC where
  g : ℕ
  x_min : ℚ
  x_max : ℚ
  y_min : ℚ
  y_max : ℚ

namespace XZ2SFC

/-- Embeds `XZ2SFC::wgs84`. -/
def wgs84 (g : ℕ) : XZ2SFC := ⟨g, -180, 180, -90, 90⟩

/-- Embeds `XZ2SFC::x_size`. -/
def x_size (c : XZ2SFC) : ℚ := c.x_max - c.x_min

/-- Embeds `XZ2SFC::y_size`. -/
def y_size (c : XZ2SFC) : ℚ := c.y_max - c.y_min

/-- Embeds `XZ2SFC::normalize`, whose two `assert!`s abort (`none`) on an
inverted box or a box not contained in the curve's domain. -/
def normalize (c : XZ2SFC) (x_min y_min x_max y_max : ℚ) :
    Option (ℚ × ℚ × ℚ × ℚ) :=
  if x_min ≤ x_max ∧ y_min ≤ y_max then
    if x_min ≥ c.x_min ∧ x_max ≤ c.x_max ∧ y_min ≥ c.y_min ∧ y_max ≤ c.y_max then
      some ((x_min - c.x_min) / c.x_size, (y_min - c.y_min) / c.y_size,
        (x_max - c.x_min) / c.x_size, (y_max - c.y_min) / c.y_size)
    else none
  else none

/-- Embeds `XZ2SFC::predicate`: `max <= (min / w2).floor() * w2 + 2.0 * w2`. -/
def predicate (mn mx w2 : ℚ) : Bool :=
  decide (mx ≤ (⌊mn / w2⌋ : ℚ) * w2 + 2 * w2)

/-- Models `max_dim.log(0.5).floor()` for `max_dim ∈ (0, 1]` as the exact
`⌊log_{1/2}⌋` (the number of doublings needed to exceed 1/2).  With fuel
`g + 1` exhaustion returns `g + 1 ≥ g`, which selects depth `g` at the use
site exactly as a larger exact value would. -/
def floorLogHalf (d : ℚ) : ℕ → ℕ
  | 0 => 0
  | fuel + 1 => if 1 / 2 < d then 0 else floorLogHalf (2 * d) fuel + 1

/-- Embeds the depth selection (`el_1` and `length`) inside `XZ2SFC::index`.
The duplicated x-axis test `predicate(nxmin, nxmax, w2) &&
predicate(nxmin, nxmax, w2)` mirrors the source verbatim (the y axis is
never tested).  `max_dim ≤ 0` (a degenerate box) makes the `f64` logarithm
`+∞`, whose saturating cast is `i32::MAX ≥ g`, selecting depth `g`. -/
def index_length (c : XZ2SFC) (nxmin nymin nxmax nymax : ℚ) : ℕ :=
  let max_dim := max (nxmax - nxmin) (nymax - nymin)
  if max_dim ≤ 0 then c.g
  else
    let el_1 := floorLogHalf max_dim (c.g + 1)
    if el_1 ≥ c.g then c.g
    else
      let w2 := (1 / 2 : ℚ) ^ (el_1 + 1)
      if predicate nxmin nxmax w2 && predicate nxmin nxmax w2 then el_1 + 1
      else el_1

/-- The `for i in 0..length` loop of `XZ2SFC::sequence_code`, with the
mutable cell bounds and accumulator as arguments.  `u64` powers are modelled
exactly (the source would overflow for `g - i ≥ 32`, beyond the practical
`g ≤ 31` domain). -/
def sequence_code_aux (g : ℕ) (x y : ℚ) (xmin ymin xmax ymax : ℚ)
    (cs : ℕ) (i : ℕ) : ℕ → ℕ
  | 0 => cs
  | steps + 1 =>
    let x_center := (xmin + xmax) / 2
    let y_center := (ymin + ymax) / 2
    if x < x_center then
      if y < y_center then
        sequence_code_aux g x y xmin ymin x_center y_center (cs + 1) (i + 1) steps
      else
        sequence_code_aux g x y xmin y_center x_center ymax
          (cs + (1 + 2 * (4 ^ (g - i) - 1) / 3)) (i + 1) steps
    else
      if y < y_center then
        sequence_code_aux g x y x_center ymin xmax y_center
          (cs + (1 + (4 ^ (g - i) - 1) / 3)) (i + 1) steps
      else
        sequence_code_aux g x y x_center y_center xmax ymax
          (cs + (1 + (3 * 4 ^ (g - i) - 1) / 3)) (i + 1) steps

/-- Embeds `XZ2SFC::sequence_code`. -/
def sequence_code (c : XZ2SFC) (x y : ℚ) (length : ℕ) : ℕ :=
  sequence_code_aux c.g x y 0 0 1 1 0 0 length

/-- Embeds `XZ2SFC::index`. -/
def index (c : XZ2SFC) (xmin ymin xmax ymax : ℚ) : Option ℕ :=
  (c.normalize xmin ymin xmax ymax).map fun q =>
    match q with
    | (nxmin, nymin, nxmax, nymax) =>
      c.sequence_code nxmin nymin (c.index_length nxmin nymin nxmax nymax)

/-- Embeds `XZ2SFC::sequence_interval` (`part` is the source's `partial`
argument). -/
def sequence_interval (c : XZ2SFC) (x y : ℚ) (length : ℕ) (part : Bool) :
    ℕ × ℕ :=
  let mn := c.sequence_code x y length
  (mn, if part then mn else mn + (4 ^ (c.g - length + 1) - 1) / 3)

/-- Embeds `XZ2SFC::check_value` (with the `is_contained` / `is_overlapped`
any-window helpers inlined as `List.any`). -/
def check_value (c : XZ2SFC) (quad : XElement2) (level : ℕ)
    (query : List QueryWindow2)
    (st : List IndexRange × List (Option XElement2)) :
    List IndexRange × List (Option XElement2) :=
  if query.any (fun q => quad.is_contained q) then
    let p := c.sequence_interval quad.xmin quad.ymin level false
    (st.1 ++ [⟨p.1, p.2, true⟩], st.2)
  else if query.any (fun q => quad.overlaps q) then
    let p := c.sequence_interval quad.xmin quad.ymin level true
    (st.1 ++ [⟨p.1, p.2, false⟩], st.2 ++ quad.children.map some)
  else st

/-- The main `while` loop of `XZ2SFC::ranges_impl`; `none` in the queue is
the `LEVEL_TERMINATOR`.  Returns (ranges, remaining, level) at loop exit;
fuel exhaustion (unreachable with the fuel supplied) returns the state
as-is, which the subsequent drain treats exactly like a budget stop. -/
def ranges_loop (c : XZ2SFC) (query : List QueryWindow2) (range_stop : ℕ) :
    ℕ → ℕ → List IndexRange → List (Option XElement2) →
      List IndexRange × List (Option XElement2) × ℕ
  | 0, level, ranges, remaining => (ranges, remaining, level)
  | fuel + 1, level, ranges, remaining =>
    if level < c.g ∧ remaining ≠ [] ∧ ranges.length < range_stop then
      match remaining with
      | [] => (ranges, remaining, level)
      | none :: rest =>
        if rest.isEmpty then ranges_loop c query range_stop fuel level ranges rest
        else ranges_loop c query range_stop fuel (level + 1) ranges (rest ++ [none])
      | some el :: rest =>
        let st := c.check_value el level query (ranges, rest)
        ranges_loop c query range_stop fuel level st.1 st.2
    else (ranges, remaining, level)

/-- The drain `while let` loop after the main loop of
`XZ2SFC::ranges_impl`. -/
def drain (c : XZ2SFC) : List (Option XElement2) → ℕ → List IndexRange → List IndexRange
  | [], _, ranges => ranges
  | none :: rest, level, ranges => drain c rest (level + 1) ranges
  | some quad :: rest, level, ranges =>
    let p := c.sequence_interval quad.xmin quad.ymin level false
    drain c rest level (ranges ++ [⟨p.1, p.2, false⟩])

/-- Embeds `XZ2SFC::ranges_impl`. -/
def ranges_impl (c : XZ2SFC) (query : List QueryWindow2) (range_stop : ℕ) :
    List IndexRange :=
  let st := ranges_loop c query range_stop FUEL 1 []
    ((XElement2.level_one_elements.map some) ++ [none])
  mergeRanges (sortRanges (drain c st.2.1 st.2.2 st.1))

/-- Embeds `XZ2SFC::ranges` (`max_ranges.unwrap_or(u16::MAX)`). -/
def ranges (c : XZ2SFC) (xmin ymin xmax ymax : ℚ) (max_ranges : Option ℕ) :
    Option (List IndexRange) :=
  (c.normalize xmin ymin xmax ymax).map fun q =>
    match q with
    | (nxmin, nymin, nxmax, nymax) =>
      c.ranges_impl [⟨nxmin, nymin, nxmax, nymax⟩] (max_ranges.getD 65535)

end XZ2SFC

/-! ### The region curve `XZ3SFC` (`src/xzorder/xz3_sfc.rs`) -/

/-- Embeds the private struct `QueryWindow` of `xz3_sfc.rs`. -/
structure QueryWindow3 where
  x_min : ℚ
  y_min : ℚ
  z_min : ℚ
  x_max : ℚ
  y_max : ℚ
  z_max : ℚ
deriving DecidableEq, Repr

/-- Embeds the private struct `XElement` of `xz3_sfc.rs`. -/
structure XElement3 where
  x_min : ℚ
  y_min : ℚ
  z_min : ℚ
  x_max : ℚ
  y_max : ℚ
  z_max : ℚ
  length : ℚ
deriving DecidableEq, Repr

namespace XElement3

/-- Embeds `XElement::xext`. -/
def xext (e : XElement3) : ℚ := e.x_max + e.length

/-- Embeds `XElement::yext`. -/
def yext (e : XElement3) : ℚ := e.y_max + e.length

/-- Embeds `XElement::zext`. -/
def zext (e : XElement3) : ℚ := e.z_max + e.length

/-- Embeds `XElement::is_contained`. -/
def is_contained (e : XElement3) (w : QueryWindow3) : Bool :=
  decide (w.x_min ≤ e.x_min ∧ w.y_min ≤ e.y_min ∧ w.z_min ≤ e.z_min ∧
    w.x_max ≥ e.xext ∧ w.y_max ≥ e.yext ∧ w.z_max ≥ e.zext)

/-- Embeds `XElement::is_overlapped`. -/
def is_overlapped (e : XElement3) (w : QueryWindow3) : Bool :=
  decide (w.x_max ≥ e.x_min ∧ w.y_max ≥ e.y_min ∧ w.z_max ≥ e.z_min ∧
    w.x_min ≤ e.xext ∧ w.y_min ≤ e.yext ∧ w.z_min ≤ e.zext)

/-- Embeds `XElement::children` (the eight octants, in source order). -/
def children (e : XElement3) : List XElement3 :=
  let x_center := (e.x_min + e.x_max) / 2
  let y_center := (e.y_min + e.y_max) / 2
  let z_center := (e.z_min + e.z_max) / 2
  let len := e.length / 2
  [⟨e.x_min, e.y_min, e.z_min, x_center, y_center, z_center, len⟩,
    ⟨x_center, e.y_min, e.z_min, e.x_max, y_center, z_center, len⟩,
    ⟨e.x_min, y_center, e.z_min, x_center, e.y_max, z_center, len⟩,
    ⟨x_center, y_center, e.z_min, e.x_max, e.y_max, z_center, len⟩,
    ⟨e.x_min, e.y_min, z_center, x_center, y_center, e.z_max, len⟩,
    ⟨x_center, e.y_min, z_center, e.x_max, y_center, e.z_max, len⟩,
    ⟨e.x_min, y_center, z_center, x_center, e.y_max, e.z_max, len⟩,
    ⟨x_center, y_center, z_center, e.x_max, e.y_max, e.z_max, len⟩]

/-- Embeds `XElement::level_one_elements`. -/
def level_one_elements : List XElement3 := children ⟨0, 0, 0, 1, 1, 1, 1⟩

end XElement3

/-- Embeds the struct `XZ3SFC`. -/
structure XZ3SFC where
  g : ℕ
  x_min : ℚ
  x_max : ℚ
  y_min : ℚ
  y_max : ℚ
  z_min : ℚ
  z_max : ℚ

namespace XZ3SFC

/-- Embeds `XZ3SFC::wgs84`. -/
def wgs84 (g : ℕ) (z_min z_max : ℚ) : XZ3SFC :=
  ⟨g, -180, 180, -90, 90, z_min, z_max⟩

/-- Embeds `XZ3SFC::x_size`. -/
def x_size (c : XZ3SFC) : ℚ := c.x_max - c.x_min

/-- Embeds `XZ3SFC::y_size`. -/
def y_size (c : XZ3SFC) : ℚ := c.y_max - c.y_min

/-- Embeds `XZ3SFC::z_size`. -/
def z_size (c : XZ3SFC) : ℚ := c.z_max - c.z_min

/-- Embeds `XZ3SFC::normalize` — note: unlike `XZ2SFC::normalize`, the
source has no `assert!` at all, so this is a total function. -/
def normalize (c : XZ3SFC) (x_min y_min z_min x_max y_max z_max : ℚ) :
    ℚ × ℚ × ℚ × ℚ × ℚ × ℚ :=
  ((x_min - c.x_min) / c.x_size, (y_min - c.y_min) / c.y_size,
    (z_min - c.z_min) / c.z_size, (x_max - c.x_min) / c.x_size,
    (y_max - c.y_min) / c.y_size, (z_max - c.z_min) / c.z_size)

/-- Embeds `XZ3SFC::predicate`. -/
def predicate (mn mx w2 : ℚ) : Bool :=
  decide (mx ≤ (⌊mn / w2⌋ : ℚ) * w2 + 2 * w2)

/-- Embeds the depth selection inside `XZ3SFC::index` (which, unlike the 2D
version, tests all three axes). -/
def index_length (c : XZ3SFC) (nxmin nymin nzmin nxmax nymax nzmax : ℚ) : ℕ :=
  let max_dim := max (max (nxmax - nxmin) (nymax - nymin)) (nzmax - nzmin)
  if max_dim ≤ 0 then c.g
  else
    let el_1 := XZ2SFC.floorLogHalf max_dim (c.g + 1)
    if el_1 ≥ c.g then c.g
    else
      let w2 := (1 / 2 : ℚ) ^ (el_1 + 1)
      if predicate nxmin nxmax w2 && (predicate nymin nymax w2 &&
          predicate nzmin nzmax w2) then el_1 + 1
      else el_1

/-- The `for i in 0..length` loop of `XZ3SFC::sequence_code`. -/
def sequence_code_aux (g : ℕ) (x y z : ℚ) (x_min y_min z_min x_max y_max z_max : ℚ)
    (cs : ℕ) (i : ℕ) : ℕ → ℕ
  | 0 => cs
  | steps + 1 =>
    let x_center := (x_min + x_max) / 2
    let y_center := (y_min + y_max) / 2
    let z_center := (z_min + z_max) / 2
    if x < x_center then
      if y < y_center then
        if z < z_center then
          sequence_code_aux g x y z x_min y_min z_min x_center y_center z_center
            (cs + 1) (i + 1) steps
        else
          sequence_code_aux g x y z x_min y_min z_center x_center y_center z_max
            (cs + (1 + 4 * (8 ^ (g - i) - 1) / 7)) (i + 1) steps
      else
        if z < z_center then
          sequence_code_aux g x y z x_min y_center z_min x_center y_max z_center
            (cs + (1 + 2 * (8 ^ (g - i) - 1) / 7)) (i + 1) steps
        else
          sequence_code_aux g x y z x_min y_center z_center x_center y_max z_max
            (cs + (1 + 6 * (8 ^ (g - i) - 1) / 7)) (i + 1) steps
    else
      if y < y_center then
        if z < z_center then
          sequence_code_aux g x y z x_center y_min z_min x_max y_center z_center
            (cs + (1 + (8 ^ (g - i) - 1) / 7)) (i + 1) steps
        else
          sequence_code_aux g x y z x_center y_min z_center x_max y_center z_max
            (cs + (1 + 5 * (8 ^ (g - i) - 1) / 7)) (i + 1) steps
      else
        if z < z_center then
          sequence_code_aux g x y z x_center y_center z_min x_max y_max z_center
            (cs + (1 + 3 * (8 ^ (g - i) - 1) / 7)) (i + 1) steps
        else
          sequence_code_aux g x y z x_center y_center z_center x_max y_max z_max
            (cs + (1 + 7 * (8 ^ (g - i) - 1) / 7)) (i + 1) steps

/-- Embeds `XZ3SFC::sequence_code`. -/
def sequence_code (c : XZ3SFC) (x y z : ℚ) (length : ℕ) : ℕ :=
  sequence_code_aux c.g x y z 0 0 0 1 1 1 0 0 length

/-- Embeds `XZ3SFC::index`. -/
def index (c : XZ3SFC) (x_min y_min z_min x_max y_max z_max : ℚ) : ℕ :=
  match c.normalize x_min y_min z_min x_max y_max z_max with
  | (nxmin, nymin, nzmin, nxmax, nymax, nzmax) =>
    c.sequence_code nxmin nymin nzmin
      (c.index_length nxmin nymin nzmin nxmax nymax nzmax)

/-- Embeds `XZ3SFC::sequence_interval` — note the non-partial branch is
`min + 8^(g - length + 1) / 7`, without the `- 1` of the 2D version. -/
def sequence_interval (c : XZ3SFC) (x y z : ℚ) (length : ℕ) (part : Bool) :
    ℕ × ℕ :=
  let mn := c.sequence_code x y z length
  (mn, if part then mn else mn + 8 ^ (c.g - length + 1) / 7)

/-- Embeds `XZ3SFC::check_value`. -/
def check_value (c : XZ3SFC) (oct : XElement3) (level : ℕ)
    (query : List QueryWindow3)
    (st : List IndexRange × List (Option XElement3)) :
    List IndexRange × List (Option XElement3) :=
  if query.any (fun q => oct.is_contained q) then
    let p := c.sequence_interval oct.x_min oct.y_min oct.z_min level false
    (st.1 ++ [⟨p.1, p.2, true⟩], st.2)
  else if query.any (fun q => oct.is_overlapped q) then
    let p := c.sequence_interval oct.x_min oct.y_min oct.z_min level true
    (st.1 ++ [⟨p.1, p.2, false⟩], st.2 ++ oct.children.map some)
  else st

/-- The main `while` loop of `XZ3SFC::ranges_impl`. -/
def ranges_loop (c : XZ3SFC) (query : List QueryWindow3) (range_stop : ℕ) :
    ℕ → ℕ → List IndexRange → List (Option XElement3) →
      List IndexRange × List (Option XElement3) × ℕ
  | 0, level, ranges, remaining => (ranges, remaining, level)
  | fuel + 1, level, ranges, remaining =>
    if level < c.g ∧ remaining ≠ [] ∧ ranges.length < range_stop then
      match remaining with
      | [] => (ranges, remaining, level)
      | none :: rest =>
        if rest.isEmpty then ranges_loop c query range_stop fuel level ranges rest
        else ranges_loop c query range_stop fuel (level + 1) ranges (rest ++ [none])
      | some el :: rest =>
        let st := c.check_value el level query (ranges, rest)
        ranges_loop c query range_stop fuel level st.1 st.2
    else (ranges, remaining, level)

/-- The drain loop after the main loop of `XZ3SFC::ranges_impl`. -/
def drain (c : XZ3SFC) : List (Option XElement3) → ℕ → List IndexRange → List IndexRange
  | [], _, ranges => ranges
  | none :: rest, level, ranges => drain c rest (level + 1) ranges
  | some oct :: rest, level, ranges =>
    let p := c.sequence_interval oct.x_min oct.y_min oct.z_min level false
    drain c rest level (ranges ++ [⟨p.1, p.2, false⟩])

/-- Embeds `XZ3SFC::ranges_impl`. -/
def ranges_impl (c : XZ3SFC) (query : List QueryWindow3) (range_stop : ℕ) :
    List IndexRange :=
  let st := ranges_loop c query range_stop FUEL 1 []
    ((XElement3.level_one_elements.map some) ++ [none])
  mergeRanges (sortRanges (drain c st.2.1 st.2.2 st.1))

/-- Embeds `XZ3SFC::ranges`. -/
def ranges (c : XZ3SFC) (xmin ymin zmin xmax ymax zmax : ℚ)
    (max_ranges : Option ℕ) : List IndexRange :=
  match c.normalize xmin ymin zmin xmax ymax zmax with
  | (nxmin, nymin, nzmin, nxmax, nymax, nzmax) =>
    c.ranges_impl [⟨nxmin, nymin, nzmin, nxmax, nymax, nzmax⟩]
      (max_ranges.getD 65535)

end XZ3SFC

/-! ### Specification-side predicates -/

/-- A well-formed range: `lower ≤ upper`. -/
def rangeWF (r : IndexRange) : Prop := r.lower ≤ r.upper

/-- The gap relation of the sorted-disjoint output invariant:
`r.upper + 1 < r'.lower` for adjacent output ranges. -/
def gap (a b : IndexRange) : Prop := a.upper + 1 < b.lower

/-- The range `r` covers the z-index `z`. -/
def coversPt (r : IndexRange) (z : ℕ) : Prop := r.lower ≤ z ∧ z ≤ r.upper

instance (r : IndexRange) (z : ℕ) : Decidable (coversPt r z) := by
  unfold coversPt
  infer_instance

/-- The range `r`, when tagged covered, only contains z-indices satisfying
`Q` (the certification the tag-conservatism claim speaks about). -/
def certifiedFor (Q : ℕ → Prop) (r : IndexRange) : Prop :=
  r.contained = true → ∀ z, r.lower ≤ z → z ≤ r.upper → Q z

/-- A dyadic cell of the `ZN` descent: `mn` is aligned to `2 ^ c` and the
cell is `[mn, mn + 2 ^ c - 1]`. -/
def cellAt (c : ℕ) (p : ℕ × ℕ) : Prop :=
  p.1 % 2 ^ c = 0 ∧ p.2 = p.1 + (2 ^ c - 1)

/-- The queue invariant of the `ZN` descent at the current `offset`: one
level terminator, preceded by cells of the previous level (size
`2 ^ (offset + dims)`), followed by cells of the current level. -/
def queueInv (dims offset : ℕ) (remaining : List (Option (ℕ × ℕ))) : Prop :=
  ∃ A B, remaining = A ++ none :: B ∧
    (∀ x ∈ A, ∃ p, x = some p ∧ cellAt (offset + dims) p) ∧
    (∀ x ∈ B, ∃ p, x = some p ∧ cellAt offset p)

/-- The point `p` lies inside some pending cell of the work queue. -/
def inCell (remaining : List (Option (ℕ × ℕ))) (p : ℕ) : Prop :=
  ∃ mn mx, some (mn, mx) ∈ remaining ∧ mn ≤ p ∧ p ≤ mx

/-! ## Theorems -/

/-! ### Generic bit-manipulation lemmas -/

theorem and_lor_right (a b c : ℕ) : (a ||| b) &&& c = (a &&& c) ||| (b &&& c) := by
  apply Nat.eq_of_testBit_eq
  intro i
  simp [Bool.and_or_distrib_right]

theorem and_xor_right (a b c : ℕ) : (a ^^^ b) &&& c = (a &&& c) ^^^ (b &&& c) :=
  Nat.and_xor_distrib_right

theorem shiftLeft_lor (a b s : ℕ) : (a ||| b) <<< s = (a <<< s) ||| (b <<< s) := by
  apply Nat.eq_of_testBit_eq
  intro i
  simp [Bool.and_or_distrib_left]

theorem shiftLeft_xor (a b s : ℕ) : (a ^^^ b) <<< s = (a <<< s) ^^^ (b <<< s) := by
  apply Nat.eq_of_testBit_eq
  intro i
  cases h : decide (i ≥ s) <;> simp [h]

theorem shiftRight_lor (a b s : ℕ) : (a ||| b) >>> s = (a >>> s) ||| (b >>> s) := by
  apply Nat.eq_of_testBit_eq
  intro i
  simp

theorem shiftRight_xor (a b s : ℕ) : (a ^^^ b) >>> s = (a >>> s) ^^^ (b >>> s) := by
  apply Nat.eq_of_testBit_eq
  intro i
  simp

theorem two_pow_and_eq_zero {k r : ℕ} (h : r < 2 ^ k) : 2 ^ k &&& r = 0 := by
  apply Nat.eq_of_testBit_eq
  intro i
  simp only [Nat.testBit_and, Nat.zero_testBit, Nat.testBit_two_pow]
  rcases eq_or_ne k i with rfl | hne
  · simp [Nat.testBit_lt_two_pow h]
  · simp [hne]

theorem lor_eq_xor_disj {a b : ℕ} (h : a &&& b = 0) : a ||| b = a ^^^ b := by
  apply Nat.eq_of_testBit_eq
  intro i
  have hb : (a.testBit i && b.testBit i) = false := by
    rw [← Nat.testBit_and, h, Nat.zero_testBit]
  rw [Nat.testBit_or, Nat.testBit_xor]
  cases ha : a.testBit i <;> cases hbb : b.testBit i <;> simp_all

/-- Splitting a positive number at its highest set bit. -/
theorem high_bit_decomp {w : ℕ} (hw : w ≠ 0) :
    w = 2 ^ w.log2 ||| w % 2 ^ w.log2 ∧ w % 2 ^ w.log2 < 2 ^ w.log2 ∧
      w % 2 ^ w.log2 < w := by
  have h1 : 2 ^ w.log2 ≤ w := Nat.log2_self_le hw
  have h2 : w < 2 ^ (w.log2 + 1) := Nat.lt_log2_self
  have hpos : 0 < 2 ^ w.log2 := Nat.pos_pow_of_pos _ (by norm_num)
  have hr : w % 2 ^ w.log2 < 2 ^ w.log2 := Nat.mod_lt _ hpos
  have hd : w / 2 ^ w.log2 = 1 := by
    have hub : w / 2 ^ w.log2 < 2 := by
      apply Nat.div_lt_of_lt_mul
      have hpow : (2 : ℕ) ^ (w.log2 + 1) = 2 ^ w.log2 * 2 := by ring
      omega
    have hlb : 1 ≤ w / 2 ^ w.log2 := (Nat.one_le_div_iff hpos).mpr h1
    omega
  have heq : w = 2 ^ w.log2 + w % 2 ^ w.log2 := by
    have hdm := Nat.div_add_mod w (2 ^ w.log2)
    rw [hd, Nat.mul_one] at hdm
    omega
  refine ⟨?_, hr, by omega⟩
  calc w = 2 ^ w.log2 * 1 + w % 2 ^ w.log2 := by omega
  _ = 2 ^ w.log2 * 1 ||| w % 2 ^ w.log2 := Nat.mul_add_lt_is_or hr 1
  _ = 2 ^ w.log2 ||| w % 2 ^ w.log2 := by rw [Nat.mul_one]

/-- Characterization of a function that distributes over bitwise or from its
values on powers of two.  `σ t = some j` means output bit `t` is input bit
`j`. -/
theorem orlin_char (f : ℕ → ℕ) (σ : ℕ → Option ℕ)
    (h0 : f 0 = 0)
    (hlin : ∀ a b, f (a ||| b) = f a ||| f b)
    (hbasis : ∀ j t, (f (2 ^ j)).testBit t = (σ t == some j)) :
    ∀ w t, (f w).testBit t = ((σ t).map w.testBit).getD false := by
  intro w
  induction w using Nat.strong_induction_on with
  | _ w ih =>
    intro t
    rcases eq_or_ne w 0 with rfl | hw
    · rw [h0]
      cases σ t <;> simp
    · obtain ⟨hdec, hlt, hsm⟩ := high_bit_decomp hw
      rw [hdec, hlin, Nat.testBit_or, hbasis, ih _ hsm t]
      cases hσ : σ t with
      | none => simp
      | some j =>
        simp only [Option.map_some', Option.getD_some, Nat.testBit_or,
          Nat.testBit_two_pow]
        rcases eq_or_ne j w.log2 with rfl | hne
        · simp
        · simp [hne, Ne.symm hne]

/-- Characterization of a function that distributes over bitwise xor from
its values on powers of two. -/
theorem xorlin_char (f : ℕ → ℕ) (σ : ℕ → Option ℕ)
    (h0 : f 0 = 0)
    (hlin : ∀ a b, f (a ^^^ b) = f a ^^^ f b)
    (hbasis : ∀ j t, (f (2 ^ j)).testBit t = (σ t == some j)) :
    ∀ w t, (f w).testBit t = ((σ t).map w.testBit).getD false := by
  intro w
  induction w using Nat.strong_induction_on with
  | _ w ih =>
    intro t
    rcases eq_or_ne w 0 with rfl | hw
    · rw [h0]
      cases σ t <;> simp
    · obtain ⟨hdec, hlt, hsm⟩ := high_bit_decomp hw
      have hdisj : 2 ^ w.log2 &&& w % 2 ^ w.log2 = 0 := two_pow_and_eq_zero hlt
      rw [hdec, lor_eq_xor_disj hdisj, hlin, Nat.testBit_xor, hbasis, ih _ hsm t]
      cases hσ : σ t with
      | none => simp
      | some j =>
        simp only [Option.map_some', Option.getD_some, Nat.testBit_or,
          Nat.testBit_two_pow]
        rcases eq_or_ne j w.log2 with rfl | hne
        · simp [Nat.testBit_lt_two_pow hlt]
        · have hbeq : (j == w.log2) = false := beq_eq_false_iff_ne.mpr hne
          simp [hbeq, hne, Ne.symm hne]

theorem nat_beq_decide (a b : ℕ) : (a == b) = decide (a = b) := by
  by_cases h : a = b <;> simp [h]

theorem some_beq_some (a b : ℕ) : (some a == some b) = (a == b) := rfl

theorem none_beq_some (b : ℕ) : ((none : Option ℕ) == some b) = false := rfl

theorem stepOr_lor (m s a b : ℕ) :
    stepOr m s (a ||| b) = stepOr m s a ||| stepOr m s b := by
  unfold stepOr
  rw [shiftLeft_lor, ← and_lor_right]
  congr 1
  apply Nat.eq_of_testBit_eq
  intro i
  simp only [Nat.testBit_or]
  cases h1 : a.testBit i <;> cases h2 : b.testBit i <;>
    cases h3 : (a <<< s).testBit i <;> cases h4 : (b <<< s).testBit i <;> simp

theorem stepXor_xor (m s a b : ℕ) :
    stepXor m s (a ^^^ b) = stepXor m s a ^^^ stepXor m s b := by
  unfold stepXor
  rw [shiftRight_xor, ← and_xor_right]
  congr 1
  apply Nat.eq_of_testBit_eq
  intro i
  simp only [Nat.testBit_xor]
  cases h1 : a.testBit i <;> cases h2 : b.testBit i <;>
    cases h3 : (a >>> s).testBit i <;> cases h4 : (b >>> s).testBit i <;> simp

theorem stepXorN_xor (s a b : ℕ) :
    stepXorN s (a ^^^ b) = stepXorN s a ^^^ stepXorN s b := by
  unfold stepXorN
  rw [shiftRight_xor]
  apply Nat.eq_of_testBit_eq
  intro i
  simp only [Nat.testBit_xor]
  cases h1 : a.testBit i <;> cases h2 : b.testBit i <;>
    cases h3 : (a >>> s).testBit i <;> cases h4 : (b >>> s).testBit i <;> simp

/-! ### Characterization of the `Z2` codec -/

namespace Z2

theorem split_eq_steps (v : ℕ) :
    split v = stepOr 0x5555555555555555 1 (stepOr 0x3333333333333333 2
      (stepOr 0x0f0f0f0f0f0f0f0f 4 (stepOr 0x00ff00ff00ff00ff 8
        (stepOr 0x0000ffff0000ffff 16 (stepOr 0x00000000ffffffff 32
          (v &&& MAX_MASK)))))) := rfl

theorem combine_eq_steps (z : ℕ) :
    combine z = stepXor 0x00000000ffffffff 16 (stepXor 0x0000ffff0000ffff 8
      (stepXor 0x00ff00ff00ff00ff 4 (stepXor 0x0f0f0f0f0f0f0f0f 2
        (stepXor 0x3333333333333333 1 (z &&& 0x5555555555555555))))) := rfl

theorem split_lor (a b : ℕ) : split (a ||| b) = split a ||| split b := by
  rw [split_eq_steps (a ||| b), split_eq_steps a, split_eq_steps b]
  simp only [and_lor_right, stepOr_lor]

theorem combine_xor (a b : ℕ) : combine (a ^^^ b) = combine a ^^^ combine b := by
  rw [combine_eq_steps (a ^^^ b), combine_eq_steps a, combine_eq_steps b]
  simp only [and_xor_right, stepXor_xor]

theorem split_zero : split 0 = 0 := by decide

theorem combine_zero : combine 0 = 0 := by decide

theorem split_pow : ∀ j, j < 31 → split (2 ^ j) = 2 ^ (2 * j) := by decide

theorem combine_pow_table :
    ∀ j, j < 64 → combine (2 ^ j) = if j % 2 = 0 then 2 ^ (j / 2) else 0 := by decide

theorem split_of_mask_zero {v : ℕ} (h : v &&& MAX_MASK = 0) : split v = 0 := by
  simp only [split, h]
  simp

theorem combine_of_mask_zero {z : ℕ} (h : z &&& 0x5555555555555555 = 0) :
    combine z = 0 := by
  simp only [combine, h]
  simp

theorem split_hi (j : ℕ) (hj : 31 ≤ j) : split (2 ^ j) = 0 := by
  apply split_of_mask_zero
  apply two_pow_and_eq_zero
  calc MAX_MASK < 2 ^ 31 := by decide
  _ ≤ 2 ^ j := Nat.pow_le_pow_right (by norm_num) hj

theorem combine_hi (j : ℕ) (hj : 64 ≤ j) : combine (2 ^ j) = 0 := by
  apply combine_of_mask_zero
  apply two_pow_and_eq_zero
  calc (0x5555555555555555 : ℕ) < 2 ^ 64 := by decide
  _ ≤ 2 ^ j := Nat.pow_le_pow_right (by norm_num) hj

theorem split_basis : ∀ j t, (split (2 ^ j)).testBit t = (sigS t == some j) := by
  intro j t
  rcases Nat.lt_or_ge j 31 with hj | hj
  · rw [split_pow j hj, Nat.testBit_two_pow]
    unfold sigS
    split_ifs with h
    · rw [some_beq_some, nat_beq_decide]
      apply decide_eq_decide.mpr
      omega
    · rw [none_beq_some]
      simp only [decide_eq_false_iff_not]
      omega
  · rw [split_hi j hj, Nat.zero_testBit]
    unfold sigS
    split_ifs with h
    · rw [some_beq_some, nat_beq_decide]
      symm
      simp only [decide_eq_false_iff_not]
      omega
    · rw [none_beq_some]

theorem combine_basis : ∀ j t, (combine (2 ^ j)).testBit t = (sigC t == some j) := by
  intro j t
  rcases Nat.lt_or_ge j 64 with hj | hj
  · rw [combine_pow_table j hj]
    by_cases hpar : j % 2 = 0
    · rw [if_pos hpar, Nat.testBit_two_pow]
      unfold sigC
      split_ifs with ht
      · rw [some_beq_some, nat_beq_decide]
        apply decide_eq_decide.mpr
        omega
      · rw [none_beq_some]
        simp only [decide_eq_false_iff_not]
        omega
    · rw [if_neg hpar, Nat.zero_testBit]
      unfold sigC
      split_ifs with ht
      · rw [some_beq_some, nat_beq_decide]
        symm
        simp only [decide_eq_false_iff_not]
        omega
      · rw [none_beq_some]
  · rw [combine_hi j hj, Nat.zero_testBit]
    unfold sigC
    split_ifs with ht
    · rw [some_beq_some, nat_beq_decide]
      symm
      simp only [decide_eq_false_iff_not]
      omega
    · rw [none_beq_some]

theorem split_char (w t : ℕ) :
    (split w).testBit t = ((sigS t).map w.testBit).getD false :=
  orlin_char split sigS split_zero split_lor split_basis w t

theorem combine_char (w t : ℕ) :
    (combine w).testBit t = ((sigC t).map w.testBit).getD false :=
  xorlin_char combine sigC combine_zero combine_xor combine_basis w t

/-- Pointwise description of `Z2.split`. -/
theorem split_testBit (w t : ℕ) :
    (split w).testBit t
      = (decide (t % 2 = 0) && (decide (t / 2 < 31) && w.testBit (t / 2))) := by
  rw [split_char]
  unfold sigS
  split_ifs with h
  · simp [h.1, h.2]
  · by_cases h1 : t % 2 = 0
    · have h2 : ¬t / 2 < 31 := fun hh => h ⟨h1, hh⟩
      simp [h1, h2]
    · simp [h1]

/-- Pointwise description of `Z2.dim`: bit `t` of dimension `i` is bit
`2 * t + i` of the z-value, for positions inside the 64-bit word. -/
theorem dim_testBit (i z t : ℕ) :
    (dim i z).testBit t = (z.testBit (2 * t + i) && decide (2 * t ≤ 62)) := by
  unfold dim
  rw [combine_char]
  unfold sigC
  split_ifs with ht
  · simp only [Option.map_some', Option.getD_some, Nat.testBit_shiftRight]
    have hadd : i + 2 * t = 2 * t + i := by omega
    rw [hadd]
    have h62 : decide (2 * t ≤ 62) = true := by
      simp only [decide_eq_true_eq]
      omega
    rw [h62, Bool.and_true]
  · simp only [Option.map_none', Option.getD_none]
    have h62 : decide (2 * t ≤ 62) = false := by
      simp only [decide_eq_false_iff_not]
      omega
    rw [h62, Bool.and_false]

theorem combine_split (v : ℕ) (hv : v < 2 ^ 31) : combine (split v) = v := by
  apply Nat.eq_of_testBit_eq
  intro t
  rw [combine_char]
  unfold sigC
  split_ifs with ht
  · simp only [Option.map_some', Option.getD_some]
    rw [split_testBit]
    by_cases h31 : t < 31
    · have e1 : decide (2 * t % 2 = 0) = true := by simp
      have e2 : decide (2 * t / 2 < 31) = true := by
        simp only [decide_eq_true_eq]
        omega
      have e3 : 2 * t / 2 = t := by omega
      rw [e1, e2, e3, Bool.true_and, Bool.true_and]
    · have e2 : decide (2 * t / 2 < 31) = false := by
        simp only [decide_eq_false_iff_not]
        omega
      rw [e2, Bool.false_and, Bool.and_false]
      symm
      apply Nat.testBit_lt_two_pow
      calc v < 2 ^ 31 := hv
      _ ≤ 2 ^ t := Nat.pow_le_pow_right (by norm_num) (by omega)
  · simp only [Option.map_none', Option.getD_none]
    symm
    apply Nat.testBit_lt_two_pow
    calc v < 2 ^ 31 := hv
    _ ≤ 2 ^ t := Nat.pow_le_pow_right (by norm_num) (by omega)

/-- Bits contributed by the y coordinate never land on even positions. -/
theorem shifted_split_even (y t : ℕ) : ((split y) <<< 1).testBit (2 * t) = false := by
  rw [Nat.testBit_shiftLeft, split_testBit]
  rcases Nat.eq_zero_or_pos t with rfl | hpos
  · simp
  · have e1 : decide ((2 * t - 1) % 2 = 0) = false := by
      simp only [decide_eq_false_iff_not]
      omega
    rw [e1, Bool.false_and, Bool.and_false]

/-- Bits contributed by the x coordinate never land on odd positions. -/
theorem split_odd (x t : ℕ) : (split x).testBit (2 * t + 1) = false := by
  rw [split_testBit]
  have e1 : decide ((2 * t + 1) % 2 = 0) = false := by
    simp only [decide_eq_false_iff_not]
    omega
  rw [e1, Bool.false_and]

theorem dim0_zOf (x y : ℕ) (hx : x < 2 ^ 31) : dim 0 (zOf x y) = x := by
  apply Nat.eq_of_testBit_eq
  intro t
  rw [dim_testBit]
  simp only [Nat.add_zero, zOf, Nat.testBit_or]
  rw [shifted_split_even, Bool.or_false, split_testBit]
  by_cases h31 : t < 31
  · have e1 : decide (2 * t % 2 = 0) = true := by simp
    have e2 : decide (2 * t / 2 < 31) = true := by
      simp only [decide_eq_true_eq]
      omega
    have e3 : 2 * t / 2 = t := by omega
    have e4 : decide (2 * t ≤ 62) = true := by
      simp only [decide_eq_true_eq]
      omega
    rw [e1, e2, e3, e4, Bool.true_and, Bool.true_and, Bool.and_true]
  · have e2 : decide (2 * t / 2 < 31) = false := by
      simp only [decide_eq_false_iff_not]
      omega
    have hxt : x.testBit t = false := by
      apply Nat.testBit_lt_two_pow
      calc x < 2 ^ 31 := hx
      _ ≤ 2 ^ t := Nat.pow_le_pow_right (by norm_num) (by omega)
    rw [e2, hxt, Bool.false_and, Bool.and_false, Bool.false_and]

theorem dim1_zOf (x y : ℕ) (hy : y < 2 ^ 31) : dim 1 (zOf x y) = y := by
  apply Nat.eq_of_testBit_eq
  intro t
  rw [dim_testBit]
  simp only [zOf, Nat.testBit_or]
  rw [split_odd, Bool.false_or]
  rw [Nat.testBit_shiftLeft]
  have hge : decide (2 * t + 1 ≥ 1) = true := by simp
  rw [hge, Bool.true_and]
  have hsub : 2 * t + 1 - 1 = 2 * t := by omega
  rw [hsub, split_testBit]
  by_cases h31 : t < 31
  · have e1 : decide (2 * t % 2 = 0) = true := by simp
    have e2 : decide (2 * t / 2 < 31) = true := by
      simp only [decide_eq_true_eq]
      omega
    have e3 : 2 * t / 2 = t := by omega
    have e4 : decide (2 * t ≤ 62) = true := by
      simp only [decide_eq_true_eq]
      omega
    rw [e1, e2, e3, e4, Bool.true_and, Bool.true_and, Bool.and_true]
  · have e2 : decide (2 * t / 2 < 31) = false := by
      simp only [decide_eq_false_iff_not]
      omega
    have hyt : y.testBit t = false := by
      apply Nat.testBit_lt_two_pow
      calc y < 2 ^ 31 := hy
      _ ≤ 2 ^ t := Nat.pow_le_pow_right (by norm_num) (by omega)
    rw [e2, hyt, Bool.false_and, Bool.and_false, Bool.false_and]

theorem decode_zOf (x y : ℕ) (hx : x < 2 ^ 31) (hy : y < 2 ^ 31) :
    decode (zOf x y) = (x, y) := by
  unfold decode
  rw [dim0_zOf x y hx, dim1_zOf x y hy]

end Z2

/-! ### The merge stage -/

theorem mergeTwo_contained (a b : IndexRange) :
    (mergeTwo a b).contained = (a.contained && b.contained) := rfl

theorem mergeTwo_lower (a b : IndexRange) : (mergeTwo a b).lower = a.lower := rfl

theorem mergeTwo_upper (a b : IndexRange) :
    (mergeTwo a b).upper = Nat.max a.upper b.upper := rfl

theorem mergeLoop_head_lower :
    ∀ (l : List IndexRange) (cur : IndexRange),
      ∃ h tl, mergeLoop cur l = h :: tl ∧ h.lower = cur.lower
  | [], cur => ⟨cur, [], rfl, rfl⟩
  | r :: rest, cur => by
    by_cases h : r.lower ≤ cur.upper + 1
    · obtain ⟨h1, tl, heq, hlow⟩ := mergeLoop_head_lower rest (mergeTwo cur r)
      refine ⟨h1, tl, ?_, ?_⟩
      · simpa [mergeLoop, h] using heq
      · rw [hlow, mergeTwo_lower]
    · exact ⟨cur, mergeLoop r rest, by simp [mergeLoop, h], rfl⟩

theorem mergeLoop_chain_gap :
    ∀ (l : List IndexRange) (cur : IndexRange), List.Chain' gap (mergeLoop cur l)
  | [], cur => by simp [mergeLoop]
  | r :: rest, cur => by
    by_cases h : r.lower ≤ cur.upper + 1
    · simpa [mergeLoop, h] using mergeLoop_chain_gap rest (mergeTwo cur r)
    · obtain ⟨h1, tl, heq, hlow⟩ := mergeLoop_head_lower rest r
      have hch := mergeLoop_chain_gap rest r
      simp only [mergeLoop, h, if_false]
      rw [heq] at hch ⊢
      rw [List.chain'_cons]
      refine ⟨?_, hch⟩
      unfold gap
      rw [hlow]
      omega

theorem mergeRanges_chain_gap (l : List IndexRange) :
    List.Chain' gap (mergeRanges l) := by
  cases l with
  | nil => simp [mergeRanges]
  | cons r rest => exact mergeLoop_chain_gap rest r

theorem mergeTwo_wf {a b : IndexRange} (ha : rangeWF a) : rangeWF (mergeTwo a b) := by
  unfold rangeWF mergeTwo at *
  exact le_trans ha (Nat.le_max_left _ _)

theorem mergeLoop_wf :
    ∀ (l : List IndexRange) (cur : IndexRange), rangeWF cur →
      (∀ r ∈ l, rangeWF r) → ∀ x ∈ mergeLoop cur l, rangeWF x
  | [], cur, hc, _, x, hx => by
    simp only [mergeLoop, List.mem_singleton] at hx
    exact hx ▸ hc
  | r :: rest, cur, hc, hl, x, hx => by
    by_cases h : r.lower ≤ cur.upper + 1
    · simp only [mergeLoop, h, if_true] at hx
      exact mergeLoop_wf rest (mergeTwo cur r) (mergeTwo_wf hc)
        (fun r hr => hl r (List.mem_cons_of_mem _ hr)) x hx
    · simp only [mergeLoop, h, if_false, List.mem_cons] at hx
      rcases hx with rfl | hx
      · exact hc
      · exact mergeLoop_wf rest r (hl r (List.mem_cons_self _ _))
          (fun r hr => hl r (List.mem_cons_of_mem _ hr)) x hx

theorem mergeRanges_wf (l : List IndexRange) (hl : ∀ r ∈ l, rangeWF r) :
    ∀ x ∈ mergeRanges l, rangeWF x := by
  cases l with
  | nil => simp [mergeRanges]
  | cons r rest =>
    exact mergeLoop_wf rest r (hl r (List.mem_cons_self _ _))
      (fun r hr => hl r (List.mem_cons_of_mem _ hr))

theorem chain_gap_all :
    ∀ (l : List IndexRange) (a : IndexRange), List.Chain gap a l →
      (∀ x ∈ l, rangeWF x) → ∀ b ∈ l, gap a b
  | [], _, _, _, b, hb => absurd hb (List.not_mem_nil b)
  | c :: rest, a, hch, hwf, b, hb => by
    rw [List.chain_cons] at hch
    rcases List.mem_cons.mp hb with rfl | hb
    · exact hch.1
    · have hcb := chain_gap_all rest c hch.2
        (fun x hx => hwf x (List.mem_cons_of_mem _ hx)) b hb
      have hwfc := hwf c (List.mem_cons_self _ _)
      unfold gap at *
      unfold rangeWF at hwfc
      omega

theorem chain_gap_pairwise :
    ∀ l : List IndexRange, List.Chain' gap l → (∀ x ∈ l, rangeWF x) →
      List.Pairwise gap l := by
  intro l
  induction l with
  | nil => intro _ _; exact List.Pairwise.nil
  | cons a rest ih =>
    intro hc hwf
    have hch : List.Chain gap a rest := hc
    rw [List.pairwise_cons]
    refine ⟨chain_gap_all rest a hch
      (fun x hx => hwf x (List.mem_cons_of_mem _ hx)), ?_⟩
    exact ih hc.tail (fun x hx => hwf x (List.mem_cons_of_mem _ hx))

theorem pairwise_gap_sorted (l : List IndexRange) (hp : List.Pairwise gap l)
    (hwf : ∀ x ∈ l, rangeWF x) : List.Sorted IndexRange.le l := by
  apply List.Pairwise.imp_of_mem ?_ hp
  intro a b ha _ hg
  unfold gap at hg
  have hwa := hwf a ha
  unfold rangeWF at hwa
  unfold IndexRange.le
  omega

theorem mergeLoop_covers :
    ∀ (l : List IndexRange) (cur : IndexRange) (z : ℕ),
      (∀ x ∈ l, cur.lower ≤ x.lower) → List.Sorted IndexRange.le l →
      (coversPt cur z ∨ ∃ r ∈ l, coversPt r z) →
      ∃ r' ∈ mergeLoop cur l, coversPt r' z
  | [], cur, z, _, _, h => by
    simp only [mergeLoop, List.mem_singleton]
    rcases h with h | ⟨r, hr, _⟩
    · exact ⟨cur, rfl, h⟩
    · exact absurd hr (List.not_mem_nil r)
  | r :: rest, cur, z, hlow, hsort, h => by
    have hsort' : List.Sorted IndexRange.le rest := hsort.of_cons
    by_cases hm : r.lower ≤ cur.upper + 1
    · simp only [mergeLoop, hm, if_true]
      apply mergeLoop_covers rest (mergeTwo cur r) z
      · intro x hx
        rw [mergeTwo_lower]
        exact hlow x (List.mem_cons_of_mem _ hx)
      · exact hsort'
      · rcases h with h | ⟨r2, hr2, hc2⟩
        · left
          refine ⟨?_, ?_⟩
          · rw [mergeTwo_lower]
            exact h.1
          · rw [mergeTwo_upper]
            exact le_trans h.2 (Nat.le_max_left _ _)
        · rcases List.mem_cons.mp hr2 with rfl | hr2
          · left
            have hl := hlow r2 (List.mem_cons_self _ _)
            refine ⟨?_, ?_⟩
            · rw [mergeTwo_lower]
              exact le_trans hl hc2.1
            · rw [mergeTwo_upper]
              exact le_trans hc2.2 (Nat.le_max_right _ _)
          · right
            exact ⟨r2, hr2, hc2⟩
    · simp only [mergeLoop, hm, if_false]
      rcases h with h | ⟨r2, hr2, hc2⟩
      · exact ⟨cur, List.mem_cons_self _ _, h⟩
      · have hrrest : ∀ x ∈ rest, r.lower ≤ x.lower := by
          intro x hx
          have := List.rel_of_sorted_cons hsort x hx
          unfold IndexRange.le at this
          omega
        rcases List.mem_cons.mp hr2 with heq | hr2
        · obtain ⟨r', hr', hc'⟩ :=
            mergeLoop_covers rest r z hrrest hsort' (Or.inl (heq ▸ hc2))
          exact ⟨r', List.mem_cons_of_mem _ hr', hc'⟩
        · obtain ⟨r', hr', hc'⟩ :=
            mergeLoop_covers rest r z hrrest hsort' (Or.inr ⟨r2, hr2, hc2⟩)
          exact ⟨r', List.mem_cons_of_mem _ hr', hc'⟩

theorem mergeRanges_covers (l : List IndexRange) (z : ℕ)
    (hs : List.Sorted IndexRange.le l) (h : ∃ r ∈ l, coversPt r z) :
    ∃ r' ∈ mergeRanges l, coversPt r' z := by
  cases l with
  | nil =>
    obtain ⟨r, hr, _⟩ := h
    exact absurd hr (List.not_mem_nil r)
  | cons a rest =>
    apply mergeLoop_covers rest a z
    · intro x hx
      have := List.rel_of_sorted_cons hs x hx
      unfold IndexRange.le at this
      omega
    · exact hs.of_cons
    · rcases h with ⟨r, hr, hc⟩
      rcases List.mem_cons.mp hr with rfl | hr
      · exact Or.inl hc
      · exact Or.inr ⟨r, hr, hc⟩

theorem mergeTwo_certified {Q : ℕ → Prop} {a b : IndexRange}
    (hadj : b.lower ≤ a.upper + 1) (ha : certifiedFor Q a) (hb : certifiedFor Q b) :
    certifiedFor Q (mergeTwo a b) := by
  intro hc z h1 h2
  rw [mergeTwo_contained, Bool.and_eq_true] at hc
  rw [mergeTwo_lower] at h1
  rw [mergeTwo_upper] at h2
  rcases le_or_lt z a.upper with hz | hz
  · exact ha hc.1 z h1 hz
  · have h2' : z ≤ a.upper ∨ z ≤ b.upper := le_max_iff.mp h2
    have hzb : z ≤ b.upper := by omega
    exact hb hc.2 z (by omega) hzb

theorem mergeLoop_certified {Q : ℕ → Prop} :
    ∀ (l : List IndexRange) (cur : IndexRange), certifiedFor Q cur →
      (∀ r ∈ l, certifiedFor Q r) → ∀ r' ∈ mergeLoop cur l, certifiedFor Q r'
  | [], cur, hc, _, r', hr' => by
    simp only [mergeLoop, List.mem_singleton] at hr'
    exact hr' ▸ hc
  | r :: rest, cur, hc, hl, r', hr' => by
    by_cases hm : r.lower ≤ cur.upper + 1
    · simp only [mergeLoop, hm, if_true] at hr'
      exact mergeLoop_certified rest (mergeTwo cur r)
        (mergeTwo_certified hm hc (hl r (List.mem_cons_self _ _)))
        (fun x hx => hl x (List.mem_cons_of_mem _ hx)) r' hr'
    · simp only [mergeLoop, hm, if_false, List.mem_cons] at hr'
      rcases hr' with rfl | hr'
      · exact hc
      · exact mergeLoop_certified rest r (hl r (List.mem_cons_self _ _))
          (fun x hx => hl x (List.mem_cons_of_mem _ hx)) r' hr'

theorem mergeRanges_certified {Q : ℕ → Prop} (l : List IndexRange)
    (hl : ∀ r ∈ l, certifiedFor Q r) : ∀ r' ∈ mergeRanges l, certifiedFor Q r' := by
  cases l with
  | nil => simp [mergeRanges]
  | cons a rest =>
    exact mergeLoop_certified rest a (hl a (List.mem_cons_self _ _))
      (fun x hx => hl x (List.mem_cons_of_mem _ hx))

theorem mergeLoop_length :
    ∀ (l : List IndexRange) (cur : IndexRange),
      (mergeLoop cur l).length ≤ l.length + 1
  | [], cur => by simp [mergeLoop]
  | r :: rest, cur => by
    by_cases hm : r.lower ≤ cur.upper + 1
    · simp only [mergeLoop, hm, if_true]
      have := mergeLoop_length rest (mergeTwo cur r)
      simp only [List.length_cons]
      omega
    · simp only [mergeLoop, hm, if_false, List.length_cons]
      have := mergeLoop_length rest r
      omega

theorem mergeRanges_length (l : List IndexRange) :
    (mergeRanges l).length ≤ l.length := by
  cases l with
  | nil => simp [mergeRanges]
  | cons a rest =>
    have := mergeLoop_length rest a
    simp only [mergeRanges, List.length_cons]
    omega

/-! ### The sorting stage -/

theorem sortRanges_mem {l : List IndexRange} {x : IndexRange} :
    x ∈ sortRanges l ↔ x ∈ l := by
  unfold sortRanges
  exact List.mem_insertionSort IndexRange.le

theorem sortRanges_length (l : List IndexRange) :
    (sortRanges l).length = l.length :=
  (List.perm_insertionSort IndexRange.le l).length_eq

theorem sortRanges_sorted (l : List IndexRange) :
    List.Sorted IndexRange.le (sortRanges l) :=
  List.sorted_insertionSort IndexRange.le l

/-! ### Invariants of the `ZN` descent loop -/

theorem le_lor_left (a b : ℕ) : a ≤ a ||| b :=
  Nat.le_of_testBit fun i h => by rw [Nat.testBit_or, h, Bool.true_or]

theorem bottomOut_mem {ranges : List IndexRange}
    {remaining : List (Option (ℕ × ℕ))} {r : IndexRange} :
    r ∈ bottomOut ranges remaining ↔
      r ∈ ranges ∨ ∃ mn mx, some (mn, mx) ∈ remaining ∧ r = ⟨mn, mx, false⟩ := by
  unfold bottomOut
  rw [List.mem_append, List.mem_filterMap]
  constructor
  · rintro (h | ⟨e, he, hmap⟩)
    · exact Or.inl h
    · right
      cases e with
      | none => simp at hmap
      | some p =>
        simp only [Option.map_some', Option.some.injEq] at hmap
        exact ⟨p.1, p.2, he, hmap.symm⟩
  · rintro (h | ⟨mn, mx, hin, rfl⟩)
    · exact Or.inl h
    · exact Or.inr ⟨some (mn, mx), hin, rfl⟩

theorem bottomOut_length (ranges : List IndexRange)
    (remaining : List (Option (ℕ × ℕ))) :
    (bottomOut ranges remaining).length ≤ ranges.length + remaining.length := by
  unfold bottomOut
  rw [List.length_append]
  have := List.length_filterMap_le
    (fun (e : Option (ℕ × ℕ)) => e.map fun p => (⟨p.1, p.2, false⟩ : IndexRange))
    remaining
  omega

theorem checkValue_wf {O : ZNOps} {pfx q offset : ℕ} {zbounds : List ZRange}
    {precision : ℕ} {st : List IndexRange × List (Option (ℕ × ℕ))}
    (h1 : ∀ r ∈ st.1, rangeWF r)
    (h2 : ∀ mn mx, some (mn, mx) ∈ st.2 → mn ≤ mx) :
    (∀ r ∈ (checkValue O pfx q offset zbounds precision st).1, rangeWF r) ∧
      (∀ mn mx, some (mn, mx) ∈ (checkValue O pfx q offset zbounds precision st).2 →
        mn ≤ mx) := by
  simp only [checkValue]
  split_ifs with hA hB
  · refine ⟨?_, h2⟩
    intro r hr
    rcases List.mem_append.mp hr with h | h
    · exact h1 r h
    · rw [List.mem_singleton] at h
      subst h
      exact le_lor_left _ _
  · refine ⟨h1, ?_⟩
    intro mn mx hmem
    rcases List.mem_append.mp hmem with h | h
    · exact h2 mn mx h
    · rw [List.mem_singleton, Option.some.injEq, Prod.mk.injEq] at h
      rw [h.1, h.2]
      exact le_lor_left _ _
  · exact ⟨h1, h2⟩

theorem checkValue_size (O : ZNOps) (pfx q offset : ℕ) (zbounds : List ZRange)
    (precision : ℕ) (st : List IndexRange × List (Option (ℕ × ℕ))) :
    (checkValue O pfx q offset zbounds precision st).1.length +
        (checkValue O pfx q offset zbounds precision st).2.length ≤
      st.1.length + st.2.length + 1 := by
  simp only [checkValue]
  split_ifs <;> simp <;> omega

theorem foldl_preserve {α σ : Type} (P : σ → Prop) (f : σ → α → σ)
    (hf : ∀ s a, P s → P (f s a)) :
    ∀ (l : List α) (s : σ), P s → P (l.foldl f s) := by
  intro l
  induction l with
  | nil => intro s h; exact h
  | cons a rest ih =>
    intro s h
    exact ih (f s a) (hf s a h)

theorem foldl_checkValue_size (O : ZNOps) (pfx offset : ℕ) (zbounds : List ZRange)
    (precision : ℕ) :
    ∀ (qs : List ℕ) (st : List IndexRange × List (Option (ℕ × ℕ))),
      (qs.foldl (fun st q => checkValue O pfx q offset zbounds precision st) st).1.length +
          (qs.foldl (fun st q => checkValue O pfx q offset zbounds precision st) st).2.length ≤
        st.1.length + st.2.length + qs.length := by
  intro qs
  induction qs with
  | nil => intro st; simp
  | cons q rest ih =>
    intro st
    have h1 := checkValue_size O pfx q offset zbounds precision st
    have h2 := ih (checkValue O pfx q offset zbounds precision st)
    simp only [List.foldl_cons, List.length_cons]
    omega

theorem zrangesLoop_wf (O : ZNOps) (zbounds : List ZRange) (precision mr mrec : ℕ) :
    ∀ (fuel offset level : ℕ) (ranges : List IndexRange)
      (remaining : List (Option (ℕ × ℕ))),
      (∀ r ∈ ranges, rangeWF r) →
      (∀ mn mx, some (mn, mx) ∈ remaining → mn ≤ mx) →
      ∀ r ∈ zrangesLoop O zbounds precision mr mrec fuel offset level ranges remaining,
        rangeWF r := by
  intro fuel
  induction fuel with
  | zero =>
    intro offset level ranges remaining h1 h2 r hr
    simp only [zrangesLoop] at hr
    rcases bottomOut_mem.mp hr with h | ⟨mn, mx, hin, rfl⟩
    · exact h1 r h
    · exact h2 mn mx hin
  | succ fuel ih =>
    intro offset level ranges remaining h1 h2 r hr
    cases remaining with
    | nil =>
      simp only [zrangesLoop] at hr
      exact h1 r hr
    | cons hd rest =>
      cases hd with
      | none =>
        simp only [zrangesLoop] at hr
        split_ifs at hr with hE hS
        · exact h1 r hr
        · rcases bottomOut_mem.mp hr with h | ⟨mn, mx, hin, rfl⟩
          · exact h1 r h
          · exact h2 mn mx (List.mem_cons_of_mem _ hin)
        · refine ih _ _ _ _ h1 ?_ r hr
          intro mn mx hmem
          rcases List.mem_append.mp hmem with h | h
          · exact h2 mn mx (List.mem_cons_of_mem _ h)
          · rw [List.mem_singleton] at h
            exact absurd h (by simp)
      | some p =>
        obtain ⟨mn0, mx0⟩ := p
        simp only [zrangesLoop] at hr
        have hkeep : (∀ r ∈ (List.range O.quadrants).foldl
              (fun st q => checkValue O mn0 q offset zbounds precision st)
              (ranges, rest) |>.1, rangeWF r) ∧
            (∀ mn mx, some (mn, mx) ∈ ((List.range O.quadrants).foldl
              (fun st q => checkValue O mn0 q offset zbounds precision st)
              (ranges, rest)).2 → mn ≤ mx) := by
          apply foldl_preserve
            (fun st => (∀ r ∈ st.1, rangeWF r) ∧
              (∀ mn mx, some (mn, mx) ∈ st.2 → mn ≤ mx))
            (fun st q => checkValue O mn0 q offset zbounds precision st)
          · intro s a hs
            exact checkValue_wf hs.1 hs.2
          · refine ⟨h1, ?_⟩
            intro mn mx hmem
            exact h2 mn mx (List.mem_cons_of_mem _ hmem)
        split_ifs at hr with hB hE
        · rcases bottomOut_mem.mp hr with h | ⟨mn, mx, hin, rfl⟩
          · exact hkeep.1 r h
          · exact hkeep.2 mn mx hin
        · exact hkeep.1 r hr
        · exact ih _ _ _ _ hkeep.1 hkeep.2 r hr

theorem zrangesLoop_len (O : ZNOps) (zbounds : List ZRange) (precision mr mrec : ℕ) :
    ∀ (fuel offset level : ℕ) (ranges : List IndexRange)
      (remaining : List (Option (ℕ × ℕ))),
      ranges.length + remaining.length ≤ Nat.max mr 2 →
      (zrangesLoop O zbounds precision mr mrec fuel offset level ranges remaining).length
        ≤ Nat.max mr 2 + O.quadrants := by
  intro fuel
  induction fuel with
  | zero =>
    intro offset level ranges remaining h
    simp only [zrangesLoop]
    have := bottomOut_length ranges remaining
    omega
  | succ fuel ih =>
    intro offset level ranges remaining h
    cases remaining with
    | nil =>
      simp only [zrangesLoop]
      omega
    | cons hd rest =>
      cases hd with
      | none =>
        simp only [zrangesLoop]
        split_ifs with hE hS
        · simp only [List.length_cons] at h
          omega
        · have := bottomOut_length ranges rest
          simp only [List.length_cons] at h
          omega
        · apply ih
          simp only [List.length_append, List.length_cons, List.length_nil] at h ⊢
          omega
      | some p =>
        obtain ⟨mn0, mx0⟩ := p
        simp only [zrangesLoop]
        have hsz := foldl_checkValue_size O mn0 offset zbounds precision
          (List.range O.quadrants) (ranges, rest)
        rw [List.length_range] at hsz
        dsimp only at hsz
        simp only [List.length_cons] at h
        have hle : mr ≤ Nat.max mr 2 := Nat.le_max_left mr 2
        split_ifs with hB hE
        · have := bottomOut_length
            ((List.range O.quadrants).foldl
              (fun st q => checkValue O mn0 q offset zbounds precision st)
              (ranges, rest)).1
            ((List.range O.quadrants).foldl
              (fun st q => checkValue O mn0 q offset zbounds precision st)
              (ranges, rest)).2
          omega
        · omega
        · apply ih
          omega

theorem zranges_out_wf (O : ZNOps) (zbounds : List ZRange) (precision : ℕ)
    (mr mrec : Option ℕ) (out : List IndexRange)
    (h : zranges O zbounds precision mr mrec = some out) : ∀ r ∈ out, rangeWF r := by
  cases zbounds with
  | nil => simp [zranges] at h
  | cons b0 tl =>
    simp only [zranges, Option.some.injEq] at h
    subst h
    apply mergeRanges_wf
    intro r hr
    rw [sortRanges_mem] at hr
    refine zrangesLoop_wf O (b0 :: tl) precision _ _ FUEL _ 0 _ _ ?_ ?_ r hr
    · exact (checkValue_wf (by simp) (by simp)).1
    · intro mn mx hmem
      rcases List.mem_append.mp hmem with hm | hm
      · exact (checkValue_wf (by simp) (by simp)).2 mn mx hm
      · simp at hm

theorem zranges_out_len (O : ZNOps) (zbounds : List ZRange) (precision : ℕ)
    (mr mrec : Option ℕ) (out : List IndexRange)
    (h : zranges O zbounds precision mr mrec = some out) :
    out.length ≤ Nat.max (mr.getD USIZE_MAX) 2 + O.quadrants := by
  cases zbounds with
  | nil => simp [zranges] at h
  | cons b0 tl =>
    simp only [zranges, Option.some.injEq] at h
    subst h
    have hcv := checkValue_size O
      (lcp O ((b0 :: tl).flatMap fun b => [b.min, b.max]) b0.min).pfx 0
      (64 - (lcp O ((b0 :: tl).flatMap fun b => [b.min, b.max]) b0.min).precision)
      (b0 :: tl) precision ([], [])
    dsimp only at hcv
    simp only [List.length_nil] at hcv
    have hloop := zrangesLoop_len O (b0 :: tl) precision (mr.getD USIZE_MAX)
      (mrec.getD DEFAULT_RECURSE) FUEL
      (64 - (lcp O ((b0 :: tl).flatMap fun b => [b.min, b.max]) b0.min).precision - O.dims) 0
      (checkValue O (lcp O ((b0 :: tl).flatMap fun b => [b.min, b.max]) b0.min).pfx 0
        (64 - (lcp O ((b0 :: tl).flatMap fun b => [b.min, b.max]) b0.min).precision)
        (b0 :: tl) precision ([], [])).1
      ((checkValue O (lcp O ((b0 :: tl).flatMap fun b => [b.min, b.max]) b0.min).pfx 0
        (64 - (lcp O ((b0 :: tl).flatMap fun b => [b.min, b.max]) b0.min).precision)
        (b0 :: tl) precision ([], [])).2 ++ [none])
      (by
        simp only [List.length_append, List.length_cons, List.length_nil]
        have h2 : (2 : ℕ) ≤ Nat.max (mr.getD USIZE_MAX) 2 := Nat.le_max_right _ _
        omega)
    calc (mergeRanges (sortRanges (zrangesLoop O (b0 :: tl) precision
          (mr.getD USIZE_MAX) (mrec.getD DEFAULT_RECURSE) FUEL
          (64 - (lcp O ((b0 :: tl).flatMap fun b => [b.min, b.max]) b0.min).precision - O.dims) 0
          (checkValue O (lcp O ((b0 :: tl).flatMap fun b => [b.min, b.max]) b0.min).pfx 0
            (64 - (lcp O ((b0 :: tl).flatMap fun b => [b.min, b.max]) b0.min).precision)
            (b0 :: tl) precision ([], [])).1
          ((checkValue O (lcp O ((b0 :: tl).flatMap fun b => [b.min, b.max]) b0.min).pfx 0
            (64 - (lcp O ((b0 :: tl).flatMap fun b => [b.min, b.max]) b0.min).precision)
            (b0 :: tl) precision ([], [])).2 ++ [none])))).length
        ≤ (sortRanges (zrangesLoop O (b0 :: tl) precision
          (mr.getD USIZE_MAX) (mrec.getD DEFAULT_RECURSE) FUEL
          (64 - (lcp O ((b0 :: tl).flatMap fun b => [b.min, b.max]) b0.min).precision - O.dims) 0
          (checkValue O (lcp O ((b0 :: tl).flatMap fun b => [b.min, b.max]) b0.min).pfx 0
            (64 - (lcp O ((b0 :: tl).flatMap fun b => [b.min, b.max]) b0.min).precision)
            (b0 :: tl) precision ([], [])).1
          ((checkValue O (lcp O ((b0 :: tl).flatMap fun b => [b.min, b.max]) b0.min).pfx 0
            (64 - (lcp O ((b0 :: tl).flatMap fun b => [b.min, b.max]) b0.min).precision)
            (b0 :: tl) precision ([], [])).2 ++ [none]))).length :=
        mergeRanges_length _
    _ = _ := sortRanges_length _
    _ ≤ _ := hloop

theorem zranges_chain_sorted (O : ZNOps) (zbounds : List ZRange) (precision : ℕ)
    (mr mrec : Option ℕ) (out : List IndexRange)
    (h : zranges O zbounds precision mr mrec = some out) :
    List.Chain' gap out ∧ List.Pairwise gap out ∧ List.Sorted IndexRange.le out := by
  have hwf := zranges_out_wf O zbounds precision mr mrec out h
  have hchain : List.Chain' gap out := by
    cases zbounds with
    | nil => simp [zranges] at h
    | cons b0 tl =>
      simp only [zranges, Option.some.injEq] at h
      subst h
      exact mergeRanges_chain_gap _
  have hpw := chain_gap_pairwise out hchain hwf
  exact ⟨hchain, hpw, pairwise_gap_sorted out hpw hwf⟩

/-! ### Invariants of the `XZ2SFC` and `XZ3SFC` loops -/

theorem xz2_sequence_interval_wf (c : XZ2SFC) (x y : ℚ) (l : ℕ) (part : Bool) :
    (c.sequence_interval x y l part).1 ≤ (c.sequence_interval x y l part).2 := by
  unfold XZ2SFC.sequence_interval
  cases part <;> simp

theorem xz2_check_value_wf (c : XZ2SFC) (quad : XElement2) (level : ℕ)
    (query : List QueryWindow2) (st : List IndexRange × List (Option XElement2))
    (h : ∀ r ∈ st.1, rangeWF r) :
    ∀ r ∈ (c.check_value quad level query st).1, rangeWF r := by
  simp only [XZ2SFC.check_value]
  split_ifs with h1 h2
  · intro r hr
    rcases List.mem_append.mp hr with hm | hm
    · exact h r hm
    · rw [List.mem_singleton] at hm
      subst hm
      exact xz2_sequence_interval_wf c quad.xmin quad.ymin level false
  · intro r hr
    rcases List.mem_append.mp hr with hm | hm
    · exact h r hm
    · rw [List.mem_singleton] at hm
      subst hm
      exact xz2_sequence_interval_wf c quad.xmin quad.ymin level true
  · exact h

theorem xz2_check_value_len (c : XZ2SFC) (quad : XElement2) (level : ℕ)
    (query : List QueryWindow2) (st : List IndexRange × List (Option XElement2)) :
    (c.check_value quad level query st).1.length ≤ st.1.length + 1 := by
  simp only [XZ2SFC.check_value]
  split_ifs <;> simp

theorem xz2_ranges_loop_wf (c : XZ2SFC) (query : List QueryWindow2) (stop : ℕ) :
    ∀ (fuel level : ℕ) (ranges : List IndexRange)
      (remaining : List (Option XElement2)),
      (∀ r ∈ ranges, rangeWF r) →
      ∀ r ∈ (XZ2SFC.ranges_loop c query stop fuel level ranges remaining).1, rangeWF r := by
  intro fuel
  induction fuel with
  | zero =>
    intro level ranges remaining h r hr
    simp only [XZ2SFC.ranges_loop] at hr
    exact h r hr
  | succ fuel ih =>
    intro level ranges remaining h r hr
    cases remaining with
    | nil =>
      simp only [XZ2SFC.ranges_loop] at hr
      split_ifs at hr <;> exact h r hr
    | cons hd rest =>
      cases hd with
      | none =>
        simp only [XZ2SFC.ranges_loop] at hr
        split_ifs at hr with hc hE
        · exact ih _ _ _ h r hr
        · exact ih _ _ _ h r hr
        · exact h r hr
      | some el =>
        simp only [XZ2SFC.ranges_loop] at hr
        split_ifs at hr with hc
        · exact ih _ _ _ (xz2_check_value_wf c el level query (ranges, rest) h) r hr
        · exact h r hr

theorem xz2_ranges_loop_len (c : XZ2SFC) (query : List QueryWindow2) (stop : ℕ) :
    ∀ (fuel level : ℕ) (ranges : List IndexRange)
      (remaining : List (Option XElement2)),
      ranges.length ≤ stop →
      (XZ2SFC.ranges_loop c query stop fuel level ranges remaining).1.length ≤ stop := by
  intro fuel
  induction fuel with
  | zero =>
    intro level ranges remaining h
    simp only [XZ2SFC.ranges_loop]
    exact h
  | succ fuel ih =>
    intro level ranges remaining h
    cases remaining with
    | nil =>
      simp only [XZ2SFC.ranges_loop]
      split_ifs <;> exact h
    | cons hd rest =>
      cases hd with
      | none =>
        simp only [XZ2SFC.ranges_loop]
        split_ifs with hc hE
        · exact ih _ _ _ h
        · exact ih _ _ _ h
        · exact h
      | some el =>
        simp only [XZ2SFC.ranges_loop]
        split_ifs with hc
        · apply ih
          have hlt : ranges.length < stop := hc.2.2
          have := xz2_check_value_len c el level query (ranges, rest)
          dsimp only at this
          omega
        · exact h

theorem xz2_drain_wf (c : XZ2SFC) :
    ∀ (rem : List (Option XElement2)) (level : ℕ) (ranges : List IndexRange),
      (∀ r ∈ ranges, rangeWF r) → ∀ r ∈ XZ2SFC.drain c rem level ranges, rangeWF r
  | [], _, ranges, h, r, hr => by
    simp only [XZ2SFC.drain] at hr
    exact h r hr
  | none :: rest, level, ranges, h, r, hr => by
    simp only [XZ2SFC.drain] at hr
    exact xz2_drain_wf c rest (level + 1) ranges h r hr
  | some quad :: rest, level, ranges, h, r, hr => by
    simp only [XZ2SFC.drain] at hr
    refine xz2_drain_wf c rest level _ ?_ r hr
    intro r2 hr2
    rcases List.mem_append.mp hr2 with hm | hm
    · exact h r2 hm
    · rw [List.mem_singleton] at hm
      subst hm
      exact xz2_sequence_interval_wf c quad.xmin quad.ymin level false

theorem xz2_ranges_impl_chain_sorted (c : XZ2SFC) (query : List QueryWindow2)
    (stop : ℕ) :
    List.Chain' gap (c.ranges_impl query stop) ∧
      List.Pairwise gap (c.ranges_impl query stop) ∧
      List.Sorted IndexRange.le (c.ranges_impl query stop) := by
  have hwf : ∀ r ∈ c.ranges_impl query stop, rangeWF r := by
    simp only [XZ2SFC.ranges_impl]
    apply mergeRanges_wf
    intro r hr
    rw [sortRanges_mem] at hr
    refine xz2_drain_wf c _ _ _ ?_ r hr
    exact xz2_ranges_loop_wf c query stop FUEL 1 [] _ (by simp)
  have hchain : List.Chain' gap (c.ranges_impl query stop) := by
    simp only [XZ2SFC.ranges_impl]
    exact mergeRanges_chain_gap _
  have hpw := chain_gap_pairwise _ hchain hwf
  exact ⟨hchain, hpw, pairwise_gap_sorted _ hpw hwf⟩

theorem xz3_sequence_interval_wf (c : XZ3SFC) (x y z : ℚ) (l : ℕ) (part : Bool) :
    (c.sequence_interval x y z l part).1 ≤ (c.sequence_interval x y z l part).2 := by
  unfold XZ3SFC.sequence_interval
  cases part <;> simp

theorem xz3_check_value_wf (c : XZ3SFC) (oct : XElement3) (level : ℕ)
    (query : List QueryWindow3) (st : List IndexRange × List (Option XElement3))
    (h : ∀ r ∈ st.1, rangeWF r) :
    ∀ r ∈ (c.check_value oct level query st).1, rangeWF r := by
  simp only [XZ3SFC.check_value]
  split_ifs with h1 h2
  · intro r hr
    rcases List.mem_append.mp hr with hm | hm
    · exact h r hm
    · rw [List.mem_singleton] at hm
      subst hm
      exact xz3_sequence_interval_wf c oct.x_min oct.y_min oct.z_min level false
  · intro r hr
    rcases List.mem_append.mp hr with hm | hm
    · exact h r hm
    · rw [List.mem_singleton] at hm
      subst hm
      exact xz3_sequence_interval_wf c oct.x_min oct.y_min oct.z_min level true
  · exact h

theorem xz3_ranges_loop_wf (c : XZ3SFC) (query : List QueryWindow3) (stop : ℕ) :
    ∀ (fuel level : ℕ) (ranges : List IndexRange)
      (remaining : List (Option XElement3)),
      (∀ r ∈ ranges, rangeWF r) →
      ∀ r ∈ (XZ3SFC.ranges_loop c query stop fuel level ranges remaining).1, rangeWF r := by
  intro fuel
  induction fuel with
  | zero =>
    intro level ranges remaining h r hr
    simp only [XZ3SFC.ranges_loop] at hr
    exact h r hr
  | succ fuel ih =>
    intro level ranges remaining h r hr
    cases remaining with
    | nil =>
      simp only [XZ3SFC.ranges_loop] at hr
      split_ifs at hr <;> exact h r hr
    | cons hd rest =>
      cases hd with
      | none =>
        simp only [XZ3SFC.ranges_loop] at hr
        split_ifs at hr with hc hE
        · exact ih _ _ _ h r hr
        · exact ih _ _ _ h r hr
        · exact h r hr
      | some el =>
        simp only [XZ3SFC.ranges_loop] at hr
        split_ifs at hr with hc
        · exact ih _ _ _ (xz3_check_value_wf c el level query (ranges, rest) h) r hr
        · exact h r hr

theorem xz3_drain_wf (c : XZ3SFC) :
    ∀ (rem : List (Option XElement3)) (level : ℕ) (ranges : List IndexRange),
      (∀ r ∈ ranges, rangeWF r) → ∀ r ∈ XZ3SFC.drain c rem level ranges, rangeWF r
  | [], _, ranges, h, r, hr => by
    simp only [XZ3SFC.drain] at hr
    exact h r hr
  | none :: rest, level, ranges, h, r, hr => by
    simp only [XZ3SFC.drain] at hr
    exact xz3_drain_wf c rest (level + 1) ranges h r hr
  | some oct :: rest, level, ranges, h, r, hr => by
    simp only [XZ3SFC.drain] at hr
    refine xz3_drain_wf c rest level _ ?_ r hr
    intro r2 hr2
    rcases List.mem_append.mp hr2 with hm | hm
    · exact h r2 hm
    · rw [List.mem_singleton] at hm
      subst hm
      exact xz3_sequence_interval_wf c oct.x_min oct.y_min oct.z_min level false

theorem xz3_ranges_impl_chain_sorted (c : XZ3SFC) (query : List QueryWindow3)
    (stop : ℕ) :
    List.Chain' gap (c.ranges_impl query stop) ∧
      List.Pairwise gap (c.ranges_impl query stop) ∧
      List.Sorted IndexRange.le (c.ranges_impl query stop) := by
  have hwf : ∀ r ∈ c.ranges_impl query stop, rangeWF r := by
    simp only [XZ3SFC.ranges_impl]
    apply mergeRanges_wf
    intro r hr
    rw [sortRanges_mem] at hr
    refine xz3_drain_wf c _ _ _ ?_ r hr
    exact xz3_ranges_loop_wf c query stop FUEL 1 [] _ (by simp)
  have hchain : List.Chain' gap (c.ranges_impl query stop) := by
    simp only [XZ3SFC.ranges_impl]
    exact mergeRanges_chain_gap _
  have hpw := chain_gap_pairwise _ hchain hwf
  exact ⟨hchain, hpw, pairwise_gap_sorted _ hpw hwf⟩

/-! ### Aligned-cell arithmetic -/

theorem aligned_lor_eq_add {a b n : ℕ} (ha : a % 2 ^ n = 0) (hb : b < 2 ^ n) :
    a ||| b = a + b := by
  obtain ⟨k, hk⟩ := Nat.dvd_of_mod_eq_zero ha
  subst hk
  apply Nat.eq_of_testBit_eq
  intro j
  rw [Nat.testBit_lor, Nat.testBit_mul_pow_two_add k hb j, Nat.testBit_mul_pow_two]
  by_cases hj : j < n
  · have hng : ¬ (j ≥ n) := by omega
    simp [hj, hng]
  · have hge : j ≥ n := by omega
    have hbj : b.testBit j = false :=
      Nat.testBit_eq_false_of_lt
        (lt_of_lt_of_le hb (Nat.pow_le_pow_right (by norm_num) hge))
    simp [hj, hge, hbj]

theorem wshl_small (q s : ℕ) (h : q * 2 ^ s < 2 ^ 64) (hs : s < 64) :
    wshl q s = q * 2 ^ s := by
  unfold wshl
  rw [Nat.mod_eq_of_lt hs, Nat.shiftLeft_eq, Nat.mod_eq_of_lt h]

theorem wshl_zero_left (s : ℕ) : wshl 0 s = 0 := by
  unfold wshl
  simp [Nat.shiftLeft_eq]

theorem wshl_one (s : ℕ) (hs : s < 64) : wshl 1 s = 2 ^ s := by
  unfold wshl
  rw [Nat.mod_eq_of_lt hs, Nat.shiftLeft_eq, one_mul,
    Nat.mod_eq_of_lt (Nat.pow_lt_pow_right (by norm_num) hs)]

theorem checkValue_mn_eq (pfx q offset dims : ℕ) (hal : pfx % 2 ^ (offset + dims) = 0)
    (hq : q < 2 ^ dims) (h64 : offset + dims ≤ 64) (hdims : 0 < dims) :
    pfx ||| wshl q offset = pfx + q * 2 ^ offset := by
  have hpo : (0:ℕ) < 2 ^ offset := Nat.two_pow_pos _
  have hlt : q * 2 ^ offset < 2 ^ (offset + dims) := by
    calc q * 2 ^ offset < 2 ^ dims * 2 ^ offset :=
          (Nat.mul_lt_mul_right hpo).mpr hq
    _ = 2 ^ (offset + dims) := by rw [← pow_add, Nat.add_comm]
  have hwr : wshl q offset = q * 2 ^ offset :=
    wshl_small q offset
      (lt_of_lt_of_le hlt (Nat.pow_le_pow_right (by norm_num) h64)) (by omega)
  rw [hwr]
  exact aligned_lor_eq_add hal hlt

theorem checkValue_mx_eq (mn offset : ℕ) (hal : mn % 2 ^ offset = 0)
    (hs : offset < 64) :
    mn ||| (wshl 1 offset - 1) = mn + (2 ^ offset - 1) := by
  rw [wshl_one offset hs]
  exact aligned_lor_eq_add hal (by have := Nat.two_pow_pos offset; omega)

theorem cell_quadrant (pfx offset dims p : ℕ) (hal : pfx % 2 ^ (offset + dims) = 0)
    (h1 : pfx ≤ p) (h2 : p ≤ pfx + (2 ^ (offset + dims) - 1)) :
    p / 2 ^ offset % 2 ^ dims < 2 ^ dims ∧
      pfx + p / 2 ^ offset % 2 ^ dims * 2 ^ offset ≤ p ∧
      p ≤ pfx + p / 2 ^ offset % 2 ^ dims * 2 ^ offset + (2 ^ offset - 1) := by
  obtain ⟨k, hk⟩ := Nat.dvd_of_mod_eq_zero hal
  have hpow : (0:ℕ) < 2 ^ (offset + dims) := Nat.two_pow_pos _
  have hpo : (0:ℕ) < 2 ^ offset := Nat.two_pow_pos _
  set r := p - pfx with hr
  have hpr : p = pfx + r := by omega
  have hrlt : r < 2 ^ (offset + dims) := by omega
  have hsplit : pfx + r = 2 ^ offset * (2 ^ dims * k) + r := by
    rw [hk]; ring
  have hdiv : p / 2 ^ offset = 2 ^ dims * k + r / 2 ^ offset := by
    rw [hpr, hsplit, Nat.mul_add_div hpo]
  have hsm : r / 2 ^ offset < 2 ^ dims := by
    rw [Nat.div_lt_iff_lt_mul hpo]
    calc r < 2 ^ (offset + dims) := hrlt
    _ = 2 ^ dims * 2 ^ offset := by rw [← pow_add, Nat.add_comm]
  have hq : p / 2 ^ offset % 2 ^ dims = r / 2 ^ offset := by
    rw [hdiv, Nat.mul_add_mod, Nat.mod_eq_of_lt hsm]
  rw [hq]
  have hle : r / 2 ^ offset * 2 ^ offset ≤ r := Nat.div_mul_le_self r _
  have hlt2 : r < (r / 2 ^ offset + 1) * 2 ^ offset := by
    have := Nat.div_add_mod r (2 ^ offset)
    have := Nat.mod_lt r hpo
    have hd0 : (r / 2 ^ offset + 1) * 2 ^ offset
        = 2 ^ offset * (r / 2 ^ offset) + 2 ^ offset := by ring
    omega
  have hd : (r / 2 ^ offset + 1) * 2 ^ offset
      = r / 2 ^ offset * 2 ^ offset + 2 ^ offset := by ring
  refine ⟨hsm, ?_, ?_⟩ <;> omega

/-! ### Decoded coordinates over aligned cells (`Z2`) -/

theorem testBit_cell_low {mn c j : ℕ} (hal : mn % 2 ^ c = 0) (hj : j < c) :
    mn.testBit j = false := by
  obtain ⟨k, hk⟩ := Nat.dvd_of_mod_eq_zero hal
  rw [hk, Nat.testBit_mul_pow_two]
  have : ¬ (j ≥ c) := by omega
  simp [this]

theorem testBit_cell_eq {mn c z j : ℕ} (hal : mn % 2 ^ c = 0) (h1 : mn ≤ z)
    (h2 : z ≤ mn + (2 ^ c - 1)) (hj : c ≤ j) : z.testBit j = mn.testBit j := by
  obtain ⟨k, hk⟩ := Nat.dvd_of_mod_eq_zero hal
  have hpc : (0:ℕ) < 2 ^ c := Nat.two_pow_pos _
  have hz : z = 2 ^ c * k + (z - mn) := by omega
  have hlt : z - mn < 2 ^ c := by omega
  rw [hz, Nat.testBit_mul_pow_two_add k hlt j, if_neg (by omega), hk,
    Nat.testBit_mul_pow_two]
  simp [hj]

theorem testBit_cell_top {mn c j : ℕ} (hal : mn % 2 ^ c = 0) (hj : j < c) :
    (mn + (2 ^ c - 1)).testBit j = true := by
  obtain ⟨k, hk⟩ := Nat.dvd_of_mod_eq_zero hal
  have hpc : (0:ℕ) < 2 ^ c := Nat.two_pow_pos _
  rw [hk, Nat.testBit_mul_pow_two_add k (by omega) j, if_pos hj,
    Nat.testBit_two_pow_sub_one]
  simp [hj]

theorem dim_le_dim_cell {c mn z : ℕ} (i : ℕ) (hal : mn % 2 ^ c = 0) (h1 : mn ≤ z)
    (h2 : z ≤ mn + (2 ^ c - 1)) :
    Z2.dim i mn ≤ Z2.dim i z ∧ Z2.dim i z ≤ Z2.dim i (mn + (2 ^ c - 1)) := by
  constructor
  · apply Nat.le_of_testBit
    intro t ht
    rw [Z2.dim_testBit] at ht ⊢
    rw [Bool.and_eq_true] at ht ⊢
    refine ⟨?_, ht.2⟩
    by_cases hc : 2 * t + i < c
    · rw [testBit_cell_low hal hc] at ht
      simp at ht
    · rw [testBit_cell_eq hal h1 h2 (by omega)]
      exact ht.1
  · apply Nat.le_of_testBit
    intro t ht
    rw [Z2.dim_testBit] at ht ⊢
    rw [Bool.and_eq_true] at ht ⊢
    refine ⟨?_, ht.2⟩
    by_cases hc : 2 * t + i < c
    · exact testBit_cell_top hal hc
    · rw [testBit_cell_eq hal (Nat.le_add_right _ _) (le_refl _) (by omega)]
      rw [testBit_cell_eq hal h1 h2 (by omega)] at ht
      exact ht.1

theorem overlaps_of_inBox {b : ZRange} {c mn p : ℕ} (hal : mn % 2 ^ c = 0)
    (h1 : mn ≤ p) (h2 : p ≤ mn + (2 ^ c - 1)) (hbox : Z2.inBox b p) :
    Z2.overlaps b ⟨mn, mn + (2 ^ c - 1)⟩ = true := by
  have hd0 := dim_le_dim_cell 0 hal h1 h2
  have hd1 := dim_le_dim_cell 1 hal h1 h2
  have hb0 := hbox 0 (by norm_num)
  have hb1 := hbox 1 (by norm_num)
  simp only [Z2.overlaps, Z2.partialOverlaps, Bool.and_eq_true, decide_eq_true_eq]
  constructor
  · exact max_le (le_min (hb0.1.trans hb0.2) (hb0.1.trans hd0.2))
      (le_min (hd0.1.trans hb0.2) (hd0.1.trans hd0.2))
  · exact max_le (le_min (hb1.1.trans hb1.2) (hb1.1.trans hd1.2))
      (le_min (hd1.1.trans hb1.2) (hd1.1.trans hd1.2))

theorem inBox_of_containsValue {b : ZRange} {c mn z : ℕ} (hal : mn % 2 ^ c = 0)
    (hcv : Z2.containsValue b ⟨mn, mn + (2 ^ c - 1)⟩ = true)
    (h1 : mn ≤ z) (h2 : z ≤ mn + (2 ^ c - 1)) : Z2.inBox b z := by
  simp only [Z2.containsValue, Z2.contains, Bool.and_eq_true, decide_eq_true_eq] at hcv
  obtain ⟨⟨a0, a1, a2, a3⟩, ⟨b0, b1, b2, b3⟩⟩ := hcv
  intro i hi
  have hd := dim_le_dim_cell i hal h1 h2
  interval_cases i
  · exact ⟨le_trans a0 hd.1, le_trans hd.2 b1⟩
  · exact ⟨le_trans a2 hd.1, le_trans hd.2 b3⟩

theorem z2_Hover (zbounds : List ZRange) :
    ∀ c mn p, mn % 2 ^ c = 0 → mn ≤ p → p ≤ mn + (2 ^ c - 1) →
      (∃ b ∈ zbounds, Z2.inBox b p) →
      zbounds.any (fun b => Z2ops.overlapsV b ⟨mn, mn + (2 ^ c - 1)⟩) = true := by
  intro c mn p hal h1 h2 hex
  obtain ⟨b, hb, hbox⟩ := hex
  rw [List.any_eq_true]
  exact ⟨b, hb, overlaps_of_inBox hal h1 h2 hbox⟩

theorem z2_Hcont (zbounds : List ZRange) :
    ∀ c mn, mn % 2 ^ c = 0 →
      zbounds.any (fun b => Z2ops.containsV b ⟨mn, mn + (2 ^ c - 1)⟩) = true →
      ∀ z, mn ≤ z → z ≤ mn + (2 ^ c - 1) → ∃ b ∈ zbounds, Z2.inBox b z := by
  intro c mn hal hany z h1 h2
  rw [List.any_eq_true] at hany
  obtain ⟨b, hb, hcv⟩ := hany
  exact ⟨b, hb, inBox_of_containsValue hal hcv h1 h2⟩

/-! ### The longest-common-prefix computation -/

theorem lcpLoop_le (O : ZNOps) (values : List ℕ) (v0 : ℕ) :
    ∀ fuel bitShift, lcpLoop O values v0 fuel bitShift ≤ bitShift := by
  intro fuel
  induction fuel with
  | zero => intro bitShift; simp [lcpLoop]
  | succ fuel ih =>
    intro bitShift
    simp only [lcpLoop]
    split_ifs with h1 h2
    · omega
    · exact le_trans (ih _) (by omega)
    · exact le_refl _

theorem lcpLoop_dvd (O : ZNOps) (values : List ℕ) (v0 : ℕ) :
    ∀ fuel bitShift, O.dims ∣ bitShift → O.dims ∣ lcpLoop O values v0 fuel bitShift := by
  intro fuel
  induction fuel with
  | zero => intro bitShift h; simpa [lcpLoop] using h
  | succ fuel ih =>
    intro bitShift h
    simp only [lcpLoop]
    split_ifs with h1 h2
    · exact dvd_zero _
    · exact ih _ (Nat.dvd_sub' h dvd_rfl)
    · exact h

theorem lcpLoop_agree (O : ZNOps) (values : List ℕ) (v0 : ℕ) :
    ∀ fuel bitShift,
      (∀ v ∈ values, v >>> (bitShift + O.dims) = v0 >>> (bitShift + O.dims)) →
      ∀ v ∈ values,
        v >>> (lcpLoop O values v0 fuel bitShift + O.dims) =
          v0 >>> (lcpLoop O values v0 fuel bitShift + O.dims) := by
  intro fuel
  induction fuel with
  | zero => intro bitShift h; simpa [lcpLoop] using h
  | succ fuel ih =>
    intro bitShift h
    simp only [lcpLoop]
    split_ifs with h1 h2
    · intro v hv
      have hagr : v >>> bitShift = v0 >>> bitShift :=
        eq_of_beq (List.all_eq_true.mp h1 v hv)
      have hd : 0 + O.dims = bitShift + (O.dims - bitShift) := by omega
      rw [hd, Nat.shiftRight_add, Nat.shiftRight_add, hagr]
    · apply ih
      intro v hv
      have hagr : v >>> bitShift = v0 >>> bitShift :=
        eq_of_beq (List.all_eq_true.mp h1 v hv)
      have hd : bitShift - O.dims + O.dims = bitShift := by omega
      rw [hd]
      exact hagr
    · exact h

theorem highMask_eq (bs : ℕ) (h : bs < 64) :
    wshl (2 ^ 64 - 1) bs = 2 ^ 64 - 2 ^ bs := by
  unfold wshl
  rw [Nat.mod_eq_of_lt h, Nat.shiftLeft_eq]
  have hb : (1:ℕ) ≤ 2 ^ bs := Nat.one_le_two_pow
  have hbB : (2:ℕ) ^ bs ≤ 2 ^ 64 := Nat.pow_le_pow_right (by norm_num) (by omega)
  have hMB : (2:ℕ) ^ 64 ≤ 2 ^ 64 * 2 ^ bs := by
    calc (2:ℕ) ^ 64 = 2 ^ 64 * 1 := by ring
    _ ≤ 2 ^ 64 * 2 ^ bs := Nat.mul_le_mul_left _ hb
  have h1 : (2 ^ 64 - 1) * 2 ^ bs = 2 ^ 64 * (2 ^ bs - 1) + (2 ^ 64 - 2 ^ bs) := by
    rw [Nat.sub_one_mul, Nat.mul_sub_one]
    omega
  rw [h1, Nat.mul_add_mod]
  exact Nat.mod_eq_of_lt (by omega)

theorem and_highMask (v bs : ℕ) (hv : v < 2 ^ 64) (hbs : bs ≤ 64) :
    v &&& (2 ^ 64 - 2 ^ bs) = 2 ^ bs * (v / 2 ^ bs) := by
  apply Nat.eq_of_testBit_eq
  intro j
  rw [Nat.testBit_land]
  have hmask : (2:ℕ) ^ 64 - 2 ^ bs = 2 ^ bs * (2 ^ (64 - bs) - 1) := by
    rw [Nat.mul_sub_one, ← pow_add]
    congr 2
    omega
  rw [hmask, Nat.testBit_mul_pow_two, Nat.testBit_mul_pow_two,
    Nat.testBit_two_pow_sub_one]
  have hdiv : (v / 2 ^ bs).testBit (j - bs) = v.testBit (bs + (j - bs)) := by
    rw [← Nat.shiftRight_eq_div_pow, Nat.testBit_shiftRight]
  rw [hdiv]
  by_cases hj : bs ≤ j
  · have hjj : bs + (j - bs) = j := by omega
    rw [hjj]
    by_cases hj64 : j < 64
    · simp [hj, show j - bs < 64 - bs by omega]
    · have hvj : v.testBit j = false :=
        Nat.testBit_eq_false_of_lt
          (lt_of_lt_of_le hv (Nat.pow_le_pow_right (by norm_num) (by omega)))
      simp [hj, hvj]
  · simp [hj]

theorem aligned_interval_of_div_eq {pfx q bs : ℕ} (hpfx : pfx = 2 ^ bs * (q / 2 ^ bs))
    (p : ℕ) (hdiv : p / 2 ^ bs = q / 2 ^ bs) :
    pfx % 2 ^ bs = 0 ∧ pfx ≤ p ∧ p ≤ pfx + (2 ^ bs - 1) := by
  have hpb : (0:ℕ) < 2 ^ bs := Nat.two_pow_pos _
  have hmod := Nat.div_add_mod p (2 ^ bs)
  have hlt := Nat.mod_lt p hpb
  refine ⟨?_, ?_, ?_⟩
  · rw [hpfx]; exact Nat.mul_mod_right _ _
  · rw [hpfx, ← hdiv]; omega
  · rw [hpfx, ← hdiv]; omega

/-! ### Transfer of z-value prefixes through `Z2` decoded coordinates -/

theorem dim_shiftRight_eq {u v : ℕ} (s i : ℕ) (h : u >>> (2 * s) = v >>> (2 * s)) :
    Z2.dim i u >>> s = Z2.dim i v >>> s := by
  have hbit : ∀ j, 2 * s ≤ j → u.testBit j = v.testBit j := by
    intro j hj
    have e : j = 2 * s + (j - 2 * s) := by omega
    rw [e, ← Nat.testBit_shiftRight u, ← Nat.testBit_shiftRight v, h]
  apply Nat.eq_of_testBit_eq
  intro t
  rw [Nat.testBit_shiftRight, Nat.testBit_shiftRight, Z2.dim_testBit, Z2.dim_testBit]
  rw [hbit (2 * (s + t) + i) (by omega)]

theorem shiftRight_eq_of_dim {u v : ℕ} (s : ℕ) (hu : u < 2 ^ 62) (hv : v < 2 ^ 62)
    (h0 : Z2.dim 0 u >>> s = Z2.dim 0 v >>> s)
    (h1 : Z2.dim 1 u >>> s = Z2.dim 1 v >>> s) :
    u >>> (2 * s) = v >>> (2 * s) := by
  apply Nat.eq_of_testBit_eq
  intro t
  rw [Nat.testBit_shiftRight, Nat.testBit_shiftRight]
  set j := 2 * s + t with hj
  by_cases h62 : j < 62
  · have hsplit : 2 * (j / 2) + j % 2 = j := by omega
    have h2t : decide (2 * (j / 2) ≤ 62) = true := by
      simp only [decide_eq_true_eq]
      omega
    have hdim : ∀ w : ℕ, (Z2.dim (j % 2) w).testBit (j / 2) = w.testBit j := by
      intro w
      rw [Z2.dim_testBit, hsplit, h2t, Bool.and_true]
    have hts : s + (j / 2 - s) = j / 2 := by omega
    have hkey : ∀ w w' : ℕ, Z2.dim (j % 2) w >>> s = Z2.dim (j % 2) w' >>> s →
        w.testBit j = w'.testBit j := by
      intro w w' hww
      rw [← hdim w, ← hdim w', ← hts, ← Nat.testBit_shiftRight (Z2.dim (j % 2) w),
        ← Nat.testBit_shiftRight (Z2.dim (j % 2) w'), hww]
    rcases Nat.mod_two_eq_zero_or_one j with he | he
    · exact hkey u v (by rw [he]; exact h0)
    · exact hkey u v (by rw [he]; exact h1)
  · have hju : u.testBit j = false :=
      Nat.testBit_eq_false_of_lt
        (lt_of_lt_of_le hu (Nat.pow_le_pow_right (by norm_num) (by omega)))
    have hjv : v.testBit j = false :=
      Nat.testBit_eq_false_of_lt
        (lt_of_lt_of_le hv (Nat.pow_le_pow_right (by norm_num) (by omega)))
    rw [hju, hjv]

theorem shiftRight_squeeze {a x b s : ℕ} (h1 : a ≤ x) (h2 : x ≤ b)
    (h : a >>> s = b >>> s) : x >>> s = a >>> s := by
  rw [Nat.shiftRight_eq_div_pow] at h ⊢
  rw [Nat.shiftRight_eq_div_pow]
  have ha : a / 2 ^ s ≤ x / 2 ^ s := Nat.div_le_div_right h1
  have hb : x / 2 ^ s ≤ b / 2 ^ s := Nat.div_le_div_right h2
  omega

theorem prefix_of_inBox {b : ZRange} {p v0 s : ℕ}
    (hbmin : b.min >>> (2 * s) = v0 >>> (2 * s))
    (hbmax : b.max >>> (2 * s) = v0 >>> (2 * s))
    (hp : p < 2 ^ 62) (hm : b.min < 2 ^ 62)
    (hbox : Z2.inBox b p) : p >>> (2 * s) = v0 >>> (2 * s) := by
  have hmm : b.min >>> (2 * s) = b.max >>> (2 * s) := hbmin.trans hbmax.symm
  have hb0 := hbox 0 (by norm_num)
  have hb1 := hbox 1 (by norm_num)
  have hd0 : Z2.dim 0 p >>> s = Z2.dim 0 b.min >>> s :=
    shiftRight_squeeze hb0.1 hb0.2 (dim_shiftRight_eq s 0 hmm)
  have hd1 : Z2.dim 1 p >>> s = Z2.dim 1 b.min >>> s :=
    shiftRight_squeeze hb1.1 hb1.2 (dim_shiftRight_eq s 1 hmm)
  exact (shiftRight_eq_of_dim s hp hm hd0 hd1).trans hbmin

/-- The facts the `zranges` entry state provides about the computed longest
common prefix, specialised to `Z2ops`: the bit offset `bs` is an even number
in `[2, 62]`, the prefix value is `values[0]` with its low `bs` bits cleared,
and (when all bound words fit in 62 bits) every bound word agrees with
`values[0]` above bit `bs`. -/
theorem z2_lcp_facts (zbounds : List ZRange) (b0 : ZRange) (tl : List ZRange)
    (hzb : zbounds = b0 :: tl) (hv0 : b0.min < 2 ^ 64) :
    ∃ bs, 2 ≤ bs ∧ bs ≤ 62 ∧ 2 ∣ bs ∧
      64 - (lcp Z2ops (zbounds.flatMap fun b => [b.min, b.max]) b0.min).precision
        = bs ∧
      (lcp Z2ops (zbounds.flatMap fun b => [b.min, b.max]) b0.min).pfx
        = 2 ^ bs * (b0.min / 2 ^ bs) ∧
      ((∀ b ∈ zbounds, b.min < 2 ^ 62 ∧ b.max < 2 ^ 62) →
        ∀ v ∈ zbounds.flatMap fun b => [b.min, b.max],
          v >>> bs = b0.min >>> bs) := by
  set values := zbounds.flatMap fun b => [b.min, b.max] with hvals
  have hres_le : lcpLoop Z2ops values b0.min 64 (Z2ops.totalBits - Z2ops.dims) ≤ 60 :=
    lcpLoop_le Z2ops values b0.min 64 (Z2ops.totalBits - Z2ops.dims)
  have hres_dvd : Z2ops.dims ∣ lcpLoop Z2ops values b0.min 64
      (Z2ops.totalBits - Z2ops.dims) :=
    lcpLoop_dvd Z2ops values b0.min 64 (Z2ops.totalBits - Z2ops.dims) ⟨30, rfl⟩
  set res := lcpLoop Z2ops values b0.min 64 (Z2ops.totalBits - Z2ops.dims) with hres
  have hres2 : (2:ℕ) ∣ res := hres_dvd
  refine ⟨res + 2, by omega, by omega, dvd_add hres2 (dvd_refl 2), ?_, ?_, ?_⟩
  · simp only [lcp]
    show 64 - (64 - (res + 2)) = res + 2
    omega
  · simp only [lcp]
    show b0.min &&& wshl (2 ^ 64 - 1) (res + 2) = 2 ^ (res + 2) * (b0.min / 2 ^ (res + 2))
    rw [highMask_eq (res + 2) (by omega), and_highMask b0.min (res + 2) hv0 (by omega)]
  · intro hb62 v hv
    have hagree := lcpLoop_agree Z2ops values b0.min 64 (Z2ops.totalBits - Z2ops.dims)
      ?_ v hv
    · exact hagree
    · intro w hw
      have hw62 : w < 2 ^ 62 := by
        rw [hvals, List.mem_flatMap] at hw
        obtain ⟨bb, hbb, hwm⟩ := hw
        have hbbb := hb62 bb hbb
        simp only [List.mem_cons, List.mem_singleton, List.not_mem_nil, or_false]
          at hwm
        rcases hwm with rfl | rfl
        · exact hbbb.1
        · exact hbbb.2
      have hb0m : b0.min < 2 ^ 62 :=
        (hb62 b0 (by rw [hzb]; exact List.mem_cons_self _ _)).1
      show w >>> 62 = b0.min >>> 62
      rw [Nat.shiftRight_eq_div_pow, Nat.shiftRight_eq_div_pow,
        Nat.div_eq_of_lt hw62, Nat.div_eq_of_lt hb0m]

/-! ### Coverage and certification through the `ZN` descent loop -/

theorem foldl_preserve_mem {α σ : Type} (P : σ → Prop) (f : σ → α → σ) :
    ∀ (l : List α), (∀ s a, a ∈ l → P s → P (f s a)) →
      ∀ init, P init → P (l.foldl f init)
  | [], _, _, h => h
  | a :: l, hstep, init, h => by
    simp only [List.foldl_cons]
    exact foldl_preserve_mem P f l
      (fun s b hb => hstep s b (List.mem_cons_of_mem a hb))
      (f init a) (hstep init a (List.mem_cons_self a l) h)

theorem foldl_achieve {α σ : Type} (P : σ → Prop) (f : σ → α → σ) (a : α)
    (hstep : ∀ s b, P s → P (f s b)) (hach : ∀ s, P (f s a)) :
    ∀ (l : List α), a ∈ l → ∀ init, P (l.foldl f init)
  | [], ha, _ => absurd ha (List.not_mem_nil a)
  | b :: l, ha, init => by
    simp only [List.foldl_cons]
    rcases List.mem_cons.mp ha with rfl | ha2
    · exact foldl_preserve P f hstep l (f init a) (hach init)
    · exact foldl_achieve P f a hstep hach l ha2 (f init b)

theorem checkValue_mono (O : ZNOps) (pfx q offset : ℕ) (zbounds : List ZRange)
    (precision : ℕ) (st : List IndexRange × List (Option (ℕ × ℕ))) :
    (∀ r ∈ st.1, r ∈ (checkValue O pfx q offset zbounds precision st).1) ∧
      (∀ e ∈ st.2, e ∈ (checkValue O pfx q offset zbounds precision st).2) := by
  simp only [checkValue]
  split_ifs <;> constructor <;> intro x hx <;>
    first
      | exact hx
      | exact List.mem_append_left _ hx

theorem checkValue_st2_ext (O : ZNOps) (pfx q offset : ℕ) (zbounds : List ZRange)
    (precision : ℕ) (st : List IndexRange × List (Option (ℕ × ℕ))) :
    (checkValue O pfx q offset zbounds precision st).2 = st.2 ∨
      (checkValue O pfx q offset zbounds precision st).2 =
        st.2 ++ [some (pfx ||| wshl q offset,
          (pfx ||| wshl q offset) ||| (wshl 1 offset - 1))] := by
  simp only [checkValue]
  split_ifs
  · exact Or.inl rfl
  · exact Or.inr rfl
  · exact Or.inl rfl

theorem checkValue_st1_cases (O : ZNOps) (pfx q offset : ℕ) (zbounds : List ZRange)
    (st : List IndexRange × List (Option (ℕ × ℕ))) :
    (checkValue O pfx q offset zbounds 64 st).1 = st.1 ∨
      ((checkValue O pfx q offset zbounds 64 st).1 =
          st.1 ++ [⟨pfx ||| wshl q offset,
            (pfx ||| wshl q offset) ||| (wshl 1 offset - 1), true⟩] ∧
        zbounds.any (fun b => O.containsV b ⟨pfx ||| wshl q offset,
          (pfx ||| wshl q offset) ||| (wshl 1 offset - 1)⟩) = true) := by
  have hz : decide ((offset : ℤ) < wsub64 64 64) = false := by
    have h0 : wsub64 64 64 = 0 := by norm_num [wsub64]
    rw [h0, decide_eq_false_iff_not]
    exact not_lt.mpr (Int.natCast_nonneg offset)
  simp only [checkValue, hz, Bool.or_false]
  split_ifs with h1 h2
  · exact Or.inr ⟨rfl, h1⟩
  · exact Or.inl rfl
  · exact Or.inl rfl

theorem checkValue_cert (O : ZNOps) (zbounds : List ZRange) (P : ℕ → Prop)
    (Hcont : ∀ c mn, mn % 2 ^ c = 0 →
      zbounds.any (fun b => O.containsV b ⟨mn, mn + (2 ^ c - 1)⟩) = true →
      ∀ z, mn ≤ z → z ≤ mn + (2 ^ c - 1) → P z)
    (pfx q offset mn : ℕ) (st : List IndexRange × List (Option (ℕ × ℕ)))
    (hmn : pfx ||| wshl q offset = mn) (hal : mn % 2 ^ offset = 0)
    (hoff : offset < 64) (hst : ∀ r ∈ st.1, certifiedFor P r) :
    ∀ r ∈ (checkValue O pfx q offset zbounds 64 st).1, certifiedFor P r := by
  have hmx2 : mn ||| (wshl 1 offset - 1) = mn + (2 ^ offset - 1) :=
    checkValue_mx_eq mn offset hal hoff
  rcases checkValue_st1_cases O pfx q offset zbounds st with h | ⟨h, hany⟩
  · rw [h]; exact hst
  · rw [h]
    intro r hr
    rcases List.mem_append.mp hr with hr | hr
    · exact hst r hr
    · rw [List.mem_singleton] at hr
      subst hr
      intro _ z hz1 hz2
      have hz1' : mn ≤ z := by rw [← hmn]; exact hz1
      have hz2' : z ≤ mn + (2 ^ offset - 1) := by
        rw [← hmx2, ← hmn]
        exact hz2
      rw [hmn, hmx2] at hany
      exact Hcont offset mn hal hany z hz1' hz2'

theorem checkValue_cover (O : ZNOps) (zbounds : List ZRange) (precision : ℕ)
    (P : ℕ → Prop)
    (Hover : ∀ c mn p, mn % 2 ^ c = 0 → mn ≤ p → p ≤ mn + (2 ^ c - 1) → P p →
      zbounds.any (fun b => O.overlapsV b ⟨mn, mn + (2 ^ c - 1)⟩) = true)
    (pfx q offset mn p : ℕ) (st : List IndexRange × List (Option (ℕ × ℕ)))
    (hmn : pfx ||| wshl q offset = mn) (hal : mn % 2 ^ offset = 0)
    (hoff : offset < 64) (hP : P p) (hp1 : mn ≤ p)
    (hp2 : p ≤ mn + (2 ^ offset - 1)) :
    (∃ r ∈ (checkValue O pfx q offset zbounds precision st).1, coversPt r p) ∨
      inCell (checkValue O pfx q offset zbounds precision st).2 p := by
  have hmx2 : mn ||| (wshl 1 offset - 1) = mn + (2 ^ offset - 1) :=
    checkValue_mx_eq mn offset hal hoff
  simp only [checkValue, hmn, hmx2]
  split_ifs with h1 h2
  · left
    exact ⟨⟨mn, mn + (2 ^ offset - 1), true⟩, by simp, hp1, hp2⟩
  · right
    exact ⟨mn, mn + (2 ^ offset - 1), by simp, hp1, hp2⟩
  · exfalso
    exact h2 (Hover offset mn p hal hp1 hp2 hP)

theorem bottomOut_mem_left {ranges : List IndexRange}
    {remaining : List (Option (ℕ × ℕ))} {r : IndexRange} (h : r ∈ ranges) :
    r ∈ bottomOut ranges remaining :=
  List.mem_append_left _ h

theorem bottomOut_mem_cell {remaining : List (Option (ℕ × ℕ))} {mn mx : ℕ}
    (ranges : List IndexRange) (h : some (mn, mx) ∈ remaining) :
    (⟨mn, mx, false⟩ : IndexRange) ∈ bottomOut ranges remaining :=
  bottomOut_mem.mpr (Or.inr ⟨mn, mx, h, rfl⟩)

theorem foldl_checkValue_ext (O : ZNOps) (zbounds : List ZRange) (precision : ℕ)
    (pmn offset : ℕ) (hal : pmn % 2 ^ (offset + O.dims) = 0)
    (h64 : offset + O.dims ≤ 64) (hdims : 0 < O.dims)
    (init : List IndexRange × List (Option (ℕ × ℕ))) :
    ∃ L, ((List.range O.quadrants).foldl
        (fun st q => checkValue O pmn q offset zbounds precision st) init).2
      = init.2 ++ L ∧ ∀ e ∈ L, ∃ pc, e = some pc ∧ cellAt offset pc := by
  apply foldl_preserve_mem
    (fun s => ∃ L, s.2 = init.2 ++ L ∧ ∀ e ∈ L, ∃ pc, e = some pc ∧ cellAt offset pc)
    (fun st q => checkValue O pmn q offset zbounds precision st)
    (List.range O.quadrants) ?_ init ⟨[], by simp, by simp⟩
  intro s q hqmem hs
  obtain ⟨L, hL, hcells⟩ := hs
  have hq : q < 2 ^ O.dims := List.mem_range.mp hqmem
  have hmn : pmn ||| wshl q offset = pmn + q * 2 ^ offset :=
    checkValue_mn_eq pmn q offset O.dims hal hq h64 hdims
  have halq : (pmn + q * 2 ^ offset) % 2 ^ offset = 0 := by
    have h1 : 2 ^ offset ∣ pmn :=
      dvd_trans (pow_dvd_pow 2 (Nat.le_add_right offset O.dims))
        (Nat.dvd_of_mod_eq_zero hal)
    have h2 : 2 ^ offset ∣ q * 2 ^ offset := dvd_mul_left _ _
    obtain ⟨c, hc⟩ := dvd_add h1 h2
    rw [hc]
    exact Nat.mul_mod_right _ _
  have hmx : (pmn + q * 2 ^ offset) ||| (wshl 1 offset - 1)
      = pmn + q * 2 ^ offset + (2 ^ offset - 1) :=
    checkValue_mx_eq _ offset halq (by omega)
  rcases checkValue_st2_ext O pmn q offset zbounds precision s with he | he
  · exact ⟨L, by rw [he, hL], hcells⟩
  · rw [hmn, hmx] at he
    refine ⟨L ++ [some (pmn + q * 2 ^ offset,
      pmn + q * 2 ^ offset + (2 ^ offset - 1))], ?_, ?_⟩
    · rw [he, hL, List.append_assoc]
    · intro e hee
      rcases List.mem_append.mp hee with hee | hee
      · exact hcells e hee
      · rw [List.mem_singleton] at hee
        subst hee
        exact ⟨_, rfl, halq, rfl⟩

theorem foldl_checkValue_mono (O : ZNOps) (zbounds : List ZRange) (precision : ℕ)
    (mn0 offset : ℕ) (init : List IndexRange × List (Option (ℕ × ℕ))) :
    (∀ r ∈ init.1, r ∈ ((List.range O.quadrants).foldl
        (fun st q => checkValue O mn0 q offset zbounds precision st) init).1) ∧
      (∀ e ∈ init.2, e ∈ ((List.range O.quadrants).foldl
        (fun st q => checkValue O mn0 q offset zbounds precision st) init).2) := by
  apply foldl_preserve
    (fun s => (∀ r ∈ init.1, r ∈ s.1) ∧ (∀ e ∈ init.2, e ∈ s.2))
    (fun st q => checkValue O mn0 q offset zbounds precision st)
    ?_ (List.range O.quadrants) init ⟨fun r hr => hr, fun e he => he⟩
  intro s q hs
  exact ⟨fun r hr => (checkValue_mono O mn0 q offset zbounds precision s).1 r
      (hs.1 r hr),
    fun e he => (checkValue_mono O mn0 q offset zbounds precision s).2 e
      (hs.2 e he)⟩

theorem foldl_checkValue_cover (O : ZNOps) (zbounds : List ZRange) (precision : ℕ)
    (P : ℕ → Prop)
    (Hover : ∀ c mn p, mn % 2 ^ c = 0 → mn ≤ p → p ≤ mn + (2 ^ c - 1) → P p →
      zbounds.any (fun b => O.overlapsV b ⟨mn, mn + (2 ^ c - 1)⟩) = true)
    (mn0 offset : ℕ) (hal : mn0 % 2 ^ (offset + O.dims) = 0)
    (h64 : offset + O.dims ≤ 64) (hdims : 0 < O.dims)
    (init : List IndexRange × List (Option (ℕ × ℕ)))
    (p : ℕ) (hP : P p) (hp1 : mn0 ≤ p)
    (hp2 : p ≤ mn0 + (2 ^ (offset + O.dims) - 1)) :
    (∃ r ∈ ((List.range O.quadrants).foldl
        (fun st q => checkValue O mn0 q offset zbounds precision st) init).1,
      coversPt r p) ∨
      inCell ((List.range O.quadrants).foldl
        (fun st q => checkValue O mn0 q offset zbounds precision st) init).2 p := by
  obtain ⟨hqlt, hq1, hq2⟩ := cell_quadrant mn0 offset O.dims p hal hp1 hp2
  have hquad : p / 2 ^ offset % 2 ^ O.dims < O.quadrants := hqlt
  have halq : (mn0 + p / 2 ^ offset % 2 ^ O.dims * 2 ^ offset) % 2 ^ offset = 0 := by
    have h1 : 2 ^ offset ∣ mn0 :=
      dvd_trans (pow_dvd_pow 2 (Nat.le_add_right offset O.dims))
        (Nat.dvd_of_mod_eq_zero hal)
    obtain ⟨c, hc⟩ := dvd_add h1 (dvd_mul_left (2 ^ offset) _)
    rw [hc]
    exact Nat.mul_mod_right _ _
  apply foldl_achieve
    (fun s => (∃ r ∈ s.1, coversPt r p) ∨ inCell s.2 p)
    (fun st q => checkValue O mn0 q offset zbounds precision st)
    (p / 2 ^ offset % 2 ^ O.dims)
    ?_ ?_ (List.range O.quadrants) (List.mem_range.mpr hquad) init
  · intro s q hs
    rcases hs with ⟨r, hr, hc⟩ | ⟨mn2, mx2, hm2, hc1, hc2⟩
    · exact Or.inl ⟨r,
        (checkValue_mono O mn0 q offset zbounds precision s).1 r hr, hc⟩
    · exact Or.inr ⟨mn2, mx2,
        (checkValue_mono O mn0 q offset zbounds precision s).2 _ hm2, hc1, hc2⟩
  · intro s
    exact checkValue_cover O zbounds precision P Hover mn0 _ offset
      (mn0 + p / 2 ^ offset % 2 ^ O.dims * 2 ^ offset) p s
      (checkValue_mn_eq mn0 _ offset O.dims hal hqlt h64 hdims)
      halq (by omega) hP hq1 hq2

theorem zrangesLoop_covers (O : ZNOps) (zbounds : List ZRange)
    (precision mr mrec : ℕ) (P : ℕ → Prop) (hdims : 0 < O.dims)
    (Hover : ∀ c mn p, mn % 2 ^ c = 0 → mn ≤ p → p ≤ mn + (2 ^ c - 1) → P p →
      zbounds.any (fun b => O.overlapsV b ⟨mn, mn + (2 ^ c - 1)⟩) = true) :
    ∀ (fuel offset level : ℕ) (ranges : List IndexRange)
      (remaining : List (Option (ℕ × ℕ))),
      O.dims ∣ offset → offset + O.dims ≤ 64 →
      queueInv O.dims offset remaining →
      (∀ p, P p → (∃ r ∈ ranges, coversPt r p) ∨ inCell remaining p) →
      ∀ p, P p →
        ∃ r ∈ zrangesLoop O zbounds precision mr mrec fuel offset level
            ranges remaining,
          coversPt r p := by
  intro fuel
  induction fuel with
  | zero =>
    intro offset level ranges remaining _ _ _ hcov p hp
    simp only [zrangesLoop]
    rcases hcov p hp with ⟨r, hr, hc⟩ | ⟨mn, mx, hmem, h1, h2⟩
    · exact ⟨r, bottomOut_mem_left hr, hc⟩
    · exact ⟨⟨mn, mx, false⟩, bottomOut_mem_cell ranges hmem, h1, h2⟩
  | succ fuel ih =>
    intro offset level ranges remaining hdvd h64 hqi hcov p hp
    obtain ⟨A, B, hrem, hA, hB⟩ := hqi
    subst hrem
    cases A with
    | nil =>
      simp only [List.nil_append] at hcov ⊢
      simp only [zrangesLoop]
      split_ifs with h1 h2
      · rcases hcov p hp with ⟨r, hr, hc⟩ | ⟨mn, mx, hmem, hc1, hc2⟩
        · exact ⟨r, hr, hc⟩
        · exfalso
          rcases List.mem_cons.mp hmem with heq | hmem2
          · simp at heq
          · rw [List.isEmpty_iff.mp h1] at hmem2
            exact absurd hmem2 (List.not_mem_nil _)
      · rcases hcov p hp with ⟨r, hr, hc⟩ | ⟨mn, mx, hmem, hc1, hc2⟩
        · exact ⟨r, bottomOut_mem_left hr, hc⟩
        · rcases List.mem_cons.mp hmem with heq | hmem2
          · simp at heq
          · exact ⟨⟨mn, mx, false⟩, bottomOut_mem_cell ranges hmem2, hc1, hc2⟩
      · have hoff0 : offset ≠ 0 := fun h => h2 (Or.inl h)
        have hod : O.dims ≤ offset := Nat.le_of_dvd (Nat.pos_of_ne_zero hoff0) hdvd
        refine ih (offset - O.dims) (level + 1) ranges (B ++ [none])
          (Nat.dvd_sub' hdvd dvd_rfl) (by omega) ?_ ?_ p hp
        · refine ⟨B, [], by simp, ?_, by simp⟩
          have hsub : offset - O.dims + O.dims = offset := by omega
          rw [hsub]
          exact hB
        · intro p' hp'
          rcases hcov p' hp' with ⟨r, hr, hc⟩ | ⟨mn, mx, hmem, hc1, hc2⟩
          · exact Or.inl ⟨r, hr, hc⟩
          · rcases List.mem_cons.mp hmem with heq | hmem2
            · simp at heq
            · exact Or.inr ⟨mn, mx, List.mem_append_left _ hmem2, hc1, hc2⟩
    | cons x A' =>
      obtain ⟨pr, hx, hcell⟩ := hA x (List.mem_cons_self _ _)
      subst hx
      obtain ⟨mn0, mx0⟩ := pr
      have hal : mn0 % 2 ^ (offset + O.dims) = 0 := hcell.1
      have hmx0 : mx0 = mn0 + (2 ^ (offset + O.dims) - 1) := hcell.2
      simp only [List.cons_append] at hcov ⊢
      simp only [zrangesLoop]
      have hmono := foldl_checkValue_mono O zbounds precision mn0 offset
        (ranges, A' ++ none :: B)
      dsimp only at hmono
      have hC : ∀ p', P p' →
          (∃ r ∈ ((List.range O.quadrants).foldl
            (fun st q => checkValue O mn0 q offset zbounds precision st)
            (ranges, A' ++ none :: B)).1, coversPt r p') ∨
          inCell ((List.range O.quadrants).foldl
            (fun st q => checkValue O mn0 q offset zbounds precision st)
            (ranges, A' ++ none :: B)).2 p' := by
        intro p' hp'
        rcases hcov p' hp' with ⟨r, hr, hc⟩ | ⟨mn2, mx2, hm2, hc1, hc2⟩
        · exact Or.inl ⟨r, hmono.1 r hr, hc⟩
        · rcases List.mem_cons.mp hm2 with heq | hm2'
          · have hpair : mn2 = mn0 ∧ mx2 = mx0 := by simpa using heq
            exact foldl_checkValue_cover O zbounds precision P Hover mn0 offset
              hal h64 hdims (ranges, A' ++ none :: B) p' hp'
              (by omega) (by omega)
          · exact Or.inr ⟨mn2, mx2, hmono.2 _ hm2', hc1, hc2⟩
      split_ifs with hbud hemp
      · rcases hC p hp with ⟨r, hr, hc⟩ | ⟨mn2, mx2, hm2, hc1, hc2⟩
        · exact ⟨r, bottomOut_mem_left hr, hc⟩
        · exact ⟨⟨mn2, mx2, false⟩, bottomOut_mem_cell _ hm2, hc1, hc2⟩
      · rcases hC p hp with ⟨r, hr, hc⟩ | ⟨mn2, mx2, hm2, hc1, hc2⟩
        · exact ⟨r, hr, hc⟩
        · exfalso
          rw [List.isEmpty_iff.mp hemp] at hm2
          exact absurd hm2 (List.not_mem_nil _)
      · obtain ⟨L, hL2, hLcells⟩ := foldl_checkValue_ext O zbounds precision mn0
          offset hal h64 hdims (ranges, A' ++ none :: B)
        dsimp only at hL2
        refine ih offset level _ _ hdvd h64 ?_ hC p hp
        refine ⟨A', B ++ L, ?_,
          fun y hy => hA y (List.mem_cons_of_mem _ hy), ?_⟩
        · rw [hL2, List.append_assoc, List.cons_append]
        · intro y hy
          rcases List.mem_append.mp hy with hy | hy
          · exact hB y hy
          · exact hLcells y hy

theorem zrangesLoop_cert (O : ZNOps) (zbounds : List ZRange) (mr mrec : ℕ)
    (P : ℕ → Prop) (hdims : 0 < O.dims)
    (Hcont : ∀ c mn, mn % 2 ^ c = 0 →
      zbounds.any (fun b => O.containsV b ⟨mn, mn + (2 ^ c - 1)⟩) = true →
      ∀ z, mn ≤ z → z ≤ mn + (2 ^ c - 1) → P z) :
    ∀ (fuel offset level : ℕ) (ranges : List IndexRange)
      (remaining : List (Option (ℕ × ℕ))),
      O.dims ∣ offset → offset + O.dims ≤ 64 →
      queueInv O.dims offset remaining →
      (∀ r ∈ ranges, certifiedFor P r) →
      ∀ r ∈ zrangesLoop O zbounds 64 mr mrec fuel offset level ranges remaining,
        certifiedFor P r := by
  intro fuel
  induction fuel with
  | zero =>
    intro offset level ranges remaining _ _ _ hcert r hr
    simp only [zrangesLoop] at hr
    rcases bottomOut_mem.mp hr with h | ⟨mn, mx, _, rfl⟩
    · exact hcert r h
    · intro hfalse
      simp at hfalse
  | succ fuel ih =>
    intro offset level ranges remaining hdvd h64 hqi hcert r hr
    obtain ⟨A, B, hrem, hA, hB⟩ := hqi
    subst hrem
    cases A with
    | nil =>
      simp only [List.nil_append] at hr
      simp only [zrangesLoop] at hr
      split_ifs at hr with h1 h2
      · exact hcert r hr
      · rcases bottomOut_mem.mp hr with h | ⟨mn, mx, _, rfl⟩
        · exact hcert r h
        · intro hfalse
          simp at hfalse
      · have hoff0 : offset ≠ 0 := fun h => h2 (Or.inl h)
        have hod : O.dims ≤ offset := Nat.le_of_dvd (Nat.pos_of_ne_zero hoff0) hdvd
        refine ih (offset - O.dims) (level + 1) ranges (B ++ [none])
          (Nat.dvd_sub' hdvd dvd_rfl) (by omega) ?_ hcert r hr
        refine ⟨B, [], by simp, ?_, by simp⟩
        have hsub : offset - O.dims + O.dims = offset := by omega
        rw [hsub]
        exact hB
    | cons x A' =>
      obtain ⟨pr, hx, hcell⟩ := hA x (List.mem_cons_self _ _)
      subst hx
      obtain ⟨mn0, mx0⟩ := pr
      have hal : mn0 % 2 ^ (offset + O.dims) = 0 := hcell.1
      simp only [List.cons_append] at hr
      simp only [zrangesLoop] at hr
      have hcertst : ∀ r2 ∈ ((List.range O.quadrants).foldl
          (fun st q => checkValue O mn0 q offset zbounds 64 st)
          (ranges, A' ++ none :: B)).1, certifiedFor P r2 := by
        apply foldl_preserve_mem
          (fun s => ∀ r2 ∈ s.1, certifiedFor P r2)
          (fun st q => checkValue O mn0 q offset zbounds 64 st)
          (List.range O.quadrants) ?_ (ranges, A' ++ none :: B) hcert
        intro s q hqm hs
        have hq : q < 2 ^ O.dims := List.mem_range.mp hqm
        have hmn := checkValue_mn_eq mn0 q offset O.dims hal hq h64 hdims
        have halq : (mn0 + q * 2 ^ offset) % 2 ^ offset = 0 := by
          have h1 : 2 ^ offset ∣ mn0 :=
            dvd_trans (pow_dvd_pow 2 (Nat.le_add_right offset O.dims))
              (Nat.dvd_of_mod_eq_zero hal)
          obtain ⟨c, hc⟩ := dvd_add h1 (dvd_mul_left (2 ^ offset) q)
          rw [hc]
          exact Nat.mul_mod_right _ _
        exact checkValue_cert O zbounds P Hcont mn0 q offset _ s hmn halq
          (by omega) hs
      split_ifs at hr with hbud hemp
      · rcases bottomOut_mem.mp hr with h | ⟨mn, mx, _, rfl⟩
        · exact hcertst r h
        · intro hfalse
          simp at hfalse
      · exact hcertst r hr
      · obtain ⟨L, hL2, hLcells⟩ := foldl_checkValue_ext O zbounds 64 mn0
          offset hal h64 hdims (ranges, A' ++ none :: B)
        dsimp only at hL2
        refine ih offset level _ _ hdvd h64 ?_ hcertst r hr
        refine ⟨A', B ++ L, ?_,
          fun y hy => hA y (List.mem_cons_of_mem _ hy), ?_⟩
        · rw [hL2, List.append_assoc, List.cons_append]
        · intro y hy
          rcases List.mem_append.mp hy with hy | hy
          · exact hB y hy
          · exact hLcells y hy

/-! ### `zranges` end-to-end coverage and certification (`Z2`) -/

theorem z2_entry_queueInv (zbounds : List ZRange) (precision pfxv bs : ℕ)
    (halign : pfxv % 2 ^ bs = 0) (hbs2 : 2 ≤ bs) (hbs62 : bs ≤ 62) :
    queueInv Z2ops.dims (bs - Z2ops.dims)
      ((checkValue Z2ops pfxv 0 bs zbounds precision ([], [])).2 ++ [none]) := by
  refine ⟨(checkValue Z2ops pfxv 0 bs zbounds precision ([], [])).2, [],
    by simp, ?_, by simp⟩
  have hbsr : bs - Z2ops.dims + Z2ops.dims = bs := by
    show bs - 2 + 2 = bs
    omega
  rw [hbsr]
  have hmn0 : pfxv ||| wshl 0 bs = pfxv := by
    simp [wshl_zero_left]
  have hmxv : pfxv ||| (wshl 1 bs - 1) = pfxv + (2 ^ bs - 1) :=
    checkValue_mx_eq pfxv bs halign (by omega)
  intro x hx
  rcases checkValue_st2_ext Z2ops pfxv 0 bs zbounds precision ([], []) with he | he
  · rw [he] at hx
    simp at hx
  · rw [he, hmn0, hmxv] at hx
    have hx2 : x = some (pfxv, pfxv + (2 ^ bs - 1)) := by simpa using hx
    subst hx2
    exact ⟨_, rfl, halign, rfl⟩

theorem z2_zranges_covers (zbounds : List ZRange) (precision : ℕ)
    (mr mrec : Option ℕ) (out : List IndexRange) (p : ℕ)
    (hb : ∀ b ∈ zbounds, b.min < 2 ^ 62 ∧ b.max < 2 ^ 62)
    (hp : p < 2 ^ 62) (hbox : ∃ b ∈ zbounds, Z2.inBox b p)
    (h : zranges Z2ops zbounds precision mr mrec = some out) :
    ∃ r ∈ out, coversPt r p := by
  cases zbounds with
  | nil => simp [zranges] at h
  | cons b0 tl =>
    obtain ⟨bs, hbs2, hbs62, hbsdvd, hprec, hpfx, hagree⟩ :=
      z2_lcp_facts (b0 :: tl) b0 tl rfl
        (lt_trans (hb b0 (List.mem_cons_self _ _)).1 (by norm_num))
    have hagr := hagree hb
    simp only [zranges, Option.some.injEq] at h
    subst h
    rw [hprec, hpfx]
    set pfxv := 2 ^ bs * (b0.min / 2 ^ bs) with hpfxv
    have halign : pfxv % 2 ^ bs = 0 := Nat.mul_mod_right _ _
    have hint : ∀ p', p' < 2 ^ 62 → (∃ b ∈ b0 :: tl, Z2.inBox b p') →
        pfxv ≤ p' ∧ p' ≤ pfxv + (2 ^ bs - 1) := by
      intro p' hp' hbox'
      obtain ⟨b, hbmem, hbox2⟩ := hbox'
      obtain ⟨s, hs⟩ := hbsdvd
      have hminmem : b.min ∈ (b0 :: tl).flatMap (fun b => [b.min, b.max]) :=
        List.mem_flatMap.mpr ⟨b, hbmem, by simp⟩
      have hmaxmem : b.max ∈ (b0 :: tl).flatMap (fun b => [b.min, b.max]) :=
        List.mem_flatMap.mpr ⟨b, hbmem, by simp⟩
      have hmin := hagr b.min hminmem
      have hmax := hagr b.max hmaxmem
      rw [hs] at hmin hmax
      have hpsh : p' >>> (2 * s) = b0.min >>> (2 * s) :=
        prefix_of_inBox hmin hmax hp' (hb b hbmem).1 hbox2
      have hdiv : p' / 2 ^ bs = b0.min / 2 ^ bs := by
        rw [hs, ← Nat.shiftRight_eq_div_pow, ← Nat.shiftRight_eq_div_pow, hpsh]
      have hiv := aligned_interval_of_div_eq hpfxv p' hdiv
      exact ⟨hiv.2.1, hiv.2.2⟩
    have Hover' : ∀ c mn p', mn % 2 ^ c = 0 → mn ≤ p' → p' ≤ mn + (2 ^ c - 1) →
        (p' < 2 ^ 62 ∧ ∃ b ∈ b0 :: tl, Z2.inBox b p') →
        ((b0 :: tl).any fun b => Z2ops.overlapsV b ⟨mn, mn + (2 ^ c - 1)⟩) = true :=
      fun c mn p' h1 h2 h3 hP => z2_Hover (b0 :: tl) c mn p' h1 h2 h3 hP.2
    have hmn0 : pfxv ||| wshl 0 bs = pfxv := by
      simp [wshl_zero_left]
    have hcov : ∀ p', (p' < 2 ^ 62 ∧ ∃ b ∈ b0 :: tl, Z2.inBox b p') →
        (∃ r ∈ (checkValue Z2ops pfxv 0 bs (b0 :: tl) precision ([], [])).1,
          coversPt r p') ∨
        inCell ((checkValue Z2ops pfxv 0 bs (b0 :: tl) precision ([], [])).2
          ++ [none]) p' := by
      intro p' hP'
      obtain ⟨h1, h2⟩ := hint p' hP'.1 hP'.2
      rcases checkValue_cover Z2ops (b0 :: tl) precision _ Hover' pfxv 0 bs pfxv p'
          ([], []) hmn0 halign (by omega) hP' h1 h2 with hcv | hcv
      · exact Or.inl hcv
      · obtain ⟨mn2, mx2, hm2, hc1, hc2⟩ := hcv
        exact Or.inr ⟨mn2, mx2, List.mem_append_left _ hm2, hc1, hc2⟩
    have hloop := zrangesLoop_covers Z2ops (b0 :: tl) precision (mr.getD USIZE_MAX)
      (mrec.getD DEFAULT_RECURSE)
      (fun p' => p' < 2 ^ 62 ∧ ∃ b ∈ b0 :: tl, Z2.inBox b p')
      (by decide) Hover' FUEL (bs - Z2ops.dims) 0
      (checkValue Z2ops pfxv 0 bs (b0 :: tl) precision ([], [])).1
      ((checkValue Z2ops pfxv 0 bs (b0 :: tl) precision ([], [])).2 ++ [none])
      (Nat.dvd_sub' hbsdvd dvd_rfl) (by show bs - 2 + 2 ≤ 64; omega)
      (z2_entry_queueInv (b0 :: tl) precision pfxv bs halign hbs2 hbs62)
      hcov p ⟨hp, hbox⟩
    obtain ⟨r, hr, hc⟩ := hloop
    exact mergeRanges_covers _ p (sortRanges_sorted _)
      ⟨r, sortRanges_mem.mpr hr, hc⟩

theorem z2_zranges_certified (zbounds : List ZRange) (mr mrec : Option ℕ)
    (out : List IndexRange)
    (hb0 : ∀ b ∈ zbounds, b.min < 2 ^ 64)
    (h : zranges Z2ops zbounds 64 mr mrec = some out) :
    ∀ r ∈ out, r.contained = true →
      ∀ z, r.lower ≤ z → z ≤ r.upper → ∃ b ∈ zbounds, Z2.inBox b z := by
  cases zbounds with
  | nil => simp [zranges] at h
  | cons b0 tl =>
    obtain ⟨bs, hbs2, hbs62, hbsdvd, hprec, hpfx, _⟩ :=
      z2_lcp_facts (b0 :: tl) b0 tl rfl (hb0 b0 (List.mem_cons_self _ _))
    simp only [zranges, Option.some.injEq] at h
    subst h
    rw [hprec, hpfx]
    set pfxv := 2 ^ bs * (b0.min / 2 ^ bs) with hpfxv
    have halign : pfxv % 2 ^ bs = 0 := Nat.mul_mod_right _ _
    have hmn0 : pfxv ||| wshl 0 bs = pfxv := by
      simp [wshl_zero_left]
    have hcert0 : ∀ r ∈ (checkValue Z2ops pfxv 0 bs (b0 :: tl) 64 ([], [])).1,
        certifiedFor (fun z => ∃ b ∈ b0 :: tl, Z2.inBox b z) r :=
      checkValue_cert Z2ops (b0 :: tl) _ (z2_Hcont (b0 :: tl)) pfxv 0 bs pfxv
        ([], []) hmn0 halign (by omega) (by simp)
    have hloop := zrangesLoop_cert Z2ops (b0 :: tl) (mr.getD USIZE_MAX)
      (mrec.getD DEFAULT_RECURSE) (fun z => ∃ b ∈ b0 :: tl, Z2.inBox b z)
      (by decide) (z2_Hcont (b0 :: tl)) FUEL (bs - Z2ops.dims) 0
      (checkValue Z2ops pfxv 0 bs (b0 :: tl) 64 ([], [])).1
      ((checkValue Z2ops pfxv 0 bs (b0 :: tl) 64 ([], [])).2 ++ [none])
      (Nat.dvd_sub' hbsdvd dvd_rfl) (by show bs - 2 + 2 ≤ 64; omega)
      (z2_entry_queueInv (b0 :: tl) 64 pfxv bs halign hbs2 hbs62) hcert0
    intro r hr
    exact mergeRanges_certified _
      (fun r2 hr2 => hloop r2 (sortRanges_mem.mp hr2)) r hr

/-! ## Claim theorems -/

/-- C3: for every input, the list returned by the refiners after the
sort-and-merge stage — `ZN::zranges` as well as `XZ2SFC`/`XZ3SFC`
`ranges_impl` — is sorted by `(lower, upper)` and adjacent ranges are
separated by gaps: `r_i.upper + 1 < r_{i+1}.lower`. -/
theorem C3_sorted_disjoint :
    (∀ (O : ZNOps) (zbounds : List ZRange) (precision : ℕ) (mr mrec : Option ℕ)
        (out : List IndexRange), zranges O zbounds precision mr mrec = some out →
      List.Sorted IndexRange.le out ∧ List.Chain' gap out) ∧
      (∀ (c : XZ2SFC) (query : List QueryWindow2) (stop : ℕ),
        List.Sorted IndexRange.le (c.ranges_impl query stop) ∧
          List.Chain' gap (c.ranges_impl query stop)) ∧
      (∀ (c : XZ3SFC) (query : List QueryWindow3) (stop : ℕ),
        List.Sorted IndexRange.le (c.ranges_impl query stop) ∧
          List.Chain' gap (c.ranges_impl query stop)) := by
  refine ⟨?_, ?_, ?_⟩
  · intro O zbounds precision mr mrec out h
    obtain ⟨h1, _, h3⟩ := zranges_chain_sorted O zbounds precision mr mrec out h
    exact ⟨h3, h1⟩
  · intro c query stop
    obtain ⟨h1, _, h3⟩ := xz2_ranges_impl_chain_sorted c query stop
    exact ⟨h3, h1⟩
  · intro c query stop
    obtain ⟨h1, _, h3⟩ := xz3_ranges_impl_chain_sorted c query stop
    exact ⟨h3, h1⟩

theorem C3_sorted_disjoint_witness :
    List.Sorted IndexRange.le [(⟨12, 15, true⟩ : IndexRange)] ∧
      List.Chain' gap [(⟨12, 15, true⟩ : IndexRange)] :=
  C3_sorted_disjoint.1 Z2ops [⟨12, 15⟩] 64 none none [⟨12, 15, true⟩] (by decide)

/-- C4: the `Z2` bit-interleave round-trips on `[0, 2^31 - 1]²`, but the
`Z3` round trip claimed for `[0, 2^21 - 1]³` fails: `Z3::combine` is missing
the final `& MAX_MASK` step (present in `Z2::combine`), so for coordinates
at `2^16` and above the pipeline value keeps a stray high bit, the
`try_into::<u32>()` panics, and `decode` aborts: `Z3::new(65536, 0, 0)` is
the z-value `2^48`, whose `decode` fails instead of returning
`(65536, 0, 0)`. -/
theorem C4_round_trip :
    (∀ x y : ℕ, x < 2 ^ 31 → y < 2 ^ 31 →
      (Z2.new x y).map Z2.decode = some (x, y)) ∧
      Z3.new 65536 0 0 = some (2 ^ 48) ∧ Z3.decode (2 ^ 48) = none := by
  refine ⟨?_, by decide, by decide⟩
  intro x y hx hy
  have hxm : x ≤ Z2.MAX_MASK := by
    unfold Z2.MAX_MASK
    omega
  have hym : y ≤ Z2.MAX_MASK := by
    unfold Z2.MAX_MASK
    omega
  rw [Z2.new, if_pos ⟨hxm, hym⟩, Option.map_some', Z2.decode_zOf x y hx hy]

theorem C4_round_trip_witness :
    (Z2.new 5 9).map Z2.decode = some (5, 9) :=
  C4_round_trip.1 5 9 (by decide) (by decide)

/-- C5: for both region curves, `sequence_interval` with `partial = false`
returns `max = min + (Q^(g - l + 1) - 1)/(Q - 1)` (`Q = 4` for `XZ2SFC`,
`Q = 8` for `XZ3SFC`), and with `partial = true` returns `max = min`.  The
`XZ3` source writes `8^(g - l + 1) / 7` without the `- 1`, which coincides
with the specified form because `8^m ≡ 1 (mod 7)`. -/
theorem C5_sequence_interval :
    (∀ (c : XZ2SFC) (x y : ℚ) (l : ℕ),
      c.sequence_interval x y l false =
        (c.sequence_code x y l,
          c.sequence_code x y l + (4 ^ (c.g - l + 1) - 1) / (4 - 1)) ∧
      c.sequence_interval x y l true =
        (c.sequence_code x y l, c.sequence_code x y l)) ∧
      ∀ (c : XZ3SFC) (x y z : ℚ) (l : ℕ),
        c.sequence_interval x y z l false =
          (c.sequence_code x y z l,
            c.sequence_code x y z l + (8 ^ (c.g - l + 1) - 1) / (8 - 1)) ∧
        c.sequence_interval x y z l true =
          (c.sequence_code x y z l, c.sequence_code x y z l) := by
  constructor
  · intro c x y l
    refine ⟨?_, rfl⟩
    show (c.sequence_code x y l,
      c.sequence_code x y l + (4 ^ (c.g - l + 1) - 1) / 3) = _
    norm_num
  · intro c x y z l
    refine ⟨?_, rfl⟩
    show (c.sequence_code x y z l,
      c.sequence_code x y z l + 8 ^ (c.g - l + 1) / 7) = _
    have hmod : 8 ^ (c.g - l + 1) % 7 = 1 := by
      rw [Nat.pow_mod]
      norm_num
    have he : ∀ A : ℕ, A % 7 = 1 → A / 7 = (A - 1) / (8 - 1) := by
      intro A hA
      omega
    rw [he _ hmod]

/-- C8: the original claim — at most `max_ranges` output ranges — fails:
with `max_ranges = 1` the query `[0,3] ∪ [48,63]` still yields two ranges,
because the budget check runs only after a whole quadrant sweep and the
bottom-out drains the queue unconditionally.  What holds is the bound
`max(max_ranges, 2) + QUADRANTS` for `ZN::zranges` (counting both lists at
the over-budget check plus one final sweep), and for the `XZ2SFC` main loop
the budget `range_stop` is respected by the loop itself (the subsequent
drain may add more). -/
theorem C8_output_bound_amended :
    (∀ (O : ZNOps) (zbounds : List ZRange) (precision : ℕ) (mr mrec : Option ℕ)
        (out : List IndexRange), zranges O zbounds precision mr mrec = some out →
      out.length ≤ Nat.max (mr.getD USIZE_MAX) 2 + O.quadrants) ∧
      ∀ (c : XZ2SFC) (query : List QueryWindow2) (stop fuel level : ℕ)
        (ranges : List IndexRange) (remaining : List (Option XElement2)),
        ranges.length ≤ stop →
        (XZ2SFC.ranges_loop c query stop fuel level ranges remaining).1.length
          ≤ stop :=
  ⟨zranges_out_len, fun c query stop fuel level ranges remaining h =>
    xz2_ranges_loop_len c query stop fuel level ranges remaining h⟩

theorem C8_output_bound_witness :
    [(⟨12, 15, true⟩ : IndexRange)].length ≤
        Nat.max ((none : Option ℕ).getD USIZE_MAX) 2 + Z2ops.quadrants ∧
      (XZ2SFC.ranges_loop (XZ2SFC.wgs84 1) [] 5 0 1 [] []).1.length ≤ 5 :=
  ⟨C8_output_bound_amended.1 Z2ops [⟨12, 15⟩] 64 none none [⟨12, 15, true⟩]
      (by decide),
    C8_output_bound_amended.2 (XZ2SFC.wgs84 1) [] 5 0 1 [] [] (by decide)⟩

theorem C8_output_bound_counterexample :
    ((zranges Z2ops [⟨0, 3⟩, ⟨48, 63⟩] 64 (some 1) none).map
      (fun out => decide (out.length ≤ 1))) = some false := by
  decide

/-- C1: the superset property holds on the 62-bit z-space the curve
actually addresses: for bounds and points below `2^62`, every z-index whose
decoded per-dimension coordinates lie inside the decoded bounds of some
query `ZRange` is covered by some returned range.  (The unrestricted
original is refuted by `C1_superset_counterexample`: above bit 61 the
decode is lossy, so the bound `[0, 2^63]` admits the in-box z-value `2^63`
that no returned range covers.) -/
theorem C1_superset_amended (zbounds : List ZRange) (precision : ℕ)
    (mr mrec : Option ℕ) (out : List IndexRange) (p : ℕ)
    (hb : ∀ b ∈ zbounds, b.min < 2 ^ 62 ∧ b.max < 2 ^ 62)
    (hp : p < 2 ^ 62) (hbox : ∃ b ∈ zbounds, Z2.inBox b p)
    (h : zranges Z2ops zbounds precision mr mrec = some out) :
    ∃ r ∈ out, coversPt r p :=
  z2_zranges_covers zbounds precision mr mrec out p hb hp hbox h

theorem C1_superset_witness :
    ∃ r ∈ [(⟨12, 15, true⟩ : IndexRange)], coversPt r 13 :=
  C1_superset_amended [⟨12, 15⟩] 64 none none [⟨12, 15, true⟩] 13
    (by decide) (by decide) (by decide) (by decide)

theorem C1_superset_counterexample :
    Z2.inBox ⟨0, 2 ^ 63⟩ (2 ^ 63) ∧
      ((zranges Z2ops [⟨0, 2 ^ 63⟩] 64 none none).map
        (fun out => decide (∃ r ∈ out, coversPt r (2 ^ 63)))) = some false := by
  constructor
  · decide
  · decide

/-- C2: tag conservatism at precision 64 (the point-curve configuration):
every z-index inside a range tagged covered decodes into some query bound's
box — the `offset < 64 - precision` disjunct of `check_value` is
unsatisfiable at precision 64, so covered ranges only arise from
`contains_value` — and the merge fold tags a merged range covered only when
both inputs were covered. -/
theorem C2_tag_conservatism (zbounds : List ZRange) (mr mrec : Option ℕ)
    (out : List IndexRange)
    (hb : ∀ b ∈ zbounds, b.min < 2 ^ 64)
    (h : zranges Z2ops zbounds 64 mr mrec = some out) :
    (∀ r ∈ out, r.contained = true →
      ∀ z, r.lower ≤ z → z ≤ r.upper → ∃ b ∈ zbounds, Z2.inBox b z) ∧
      ∀ a b : IndexRange, (mergeTwo a b).contained = true →
        a.contained = true ∧ b.contained = true := by
  refine ⟨z2_zranges_certified zbounds mr mrec out hb h, ?_⟩
  intro a b hc
  rw [mergeTwo_contained, Bool.and_eq_true] at hc
  exact hc

theorem C2_tag_conservatism_witness :
    (∀ r ∈ [(⟨12, 15, true⟩ : IndexRange)], r.contained = true →
      ∀ z, r.lower ≤ z → z ≤ r.upper →
        ∃ b ∈ [(⟨12, 15⟩ : ZRange)], Z2.inBox b z) ∧
      ∀ a b : IndexRange, (mergeTwo a b).contained = true →
        a.contained = true ∧ b.contained = true :=
  C2_tag_conservatism [⟨12, 15⟩] none none [⟨12, 15, true⟩] (by decide) (by decide)

theorem ratToU32_le_of_le (q : ℚ) (n : ℕ) (hq : q ≤ (n : ℚ)) :
    ZCurve2D.ratToU32 q ≤ n := by
  unfold ZCurve2D.ratToU32
  have hfl : ⌊q⌋ ≤ (n : ℤ) := by
    calc ⌊q⌋ ≤ ⌊(n : ℚ)⌋ := Int.floor_le_floor hq
    _ = (n : ℤ) := Int.floor_natCast n
  have htn : Int.toNat ⌊q⌋ ≤ n := by omega
  exact le_trans (Nat.min_le_left _ _) htn

/-- C7: the saturation guarantee holds on the configured box: for a curve
with positive resolution at most `2^31 - 1` and a point inside
`[x_min, x_max] × [y_min, y_max]`, the clamped column and row stay at or
below resolution, within `Z2::new`'s asserted range, so `index` returns a
value.  (The unrestricted original — never aborts for any `f64` input — is
refuted by `C7_index_saturates_counterexample`: far outside the box the
cast clamps to `u32::MAX = 2^32 - 1`, which violates the `Z2::new`
assertion `x <= 2^31 - 1` and aborts.) -/
theorem C7_index_saturates_amended (c : ZCurve2D) (x y : ℚ)
    (hres : 0 < c.resolution) (hresb : c.resolution ≤ 2 ^ 31 - 1)
    (hxw : c.x_min < c.x_max) (hyw : c.y_min < c.y_max)
    (hx1 : c.x_min ≤ x) (hx2 : x ≤ c.x_max)
    (hy1 : c.y_min ≤ y) (hy2 : y ≤ c.y_max) :
    (c.index x y).isSome = true := by
  have hrq : (0 : ℚ) < (c.resolution : ℚ) := by exact_mod_cast hres
  have hcw : 0 < c.cell_width := by
    unfold ZCurve2D.cell_width
    exact div_pos (by linarith) hrq
  have hch : 0 < c.cell_height := by
    unfold ZCurve2D.cell_height
    exact div_pos (by linarith) hrq
  have hcol : c.map_to_col x ≤ c.resolution := by
    unfold ZCurve2D.map_to_col
    apply ratToU32_le_of_le
    rw [div_le_iff₀ hcw]
    unfold ZCurve2D.cell_width
    rw [mul_comm, div_mul_cancel₀ _ (ne_of_gt hrq)]
    linarith
  have hrow : c.map_to_row y ≤ c.resolution := by
    unfold ZCurve2D.map_to_row
    apply ratToU32_le_of_le
    rw [div_le_iff₀ hch]
    unfold ZCurve2D.cell_height
    rw [mul_comm, div_mul_cancel₀ _ (ne_of_gt hrq)]
    linarith
  unfold ZCurve2D.index Z2.new
  have h1 : c.map_to_col x ≤ Z2.MAX_MASK := by
    unfold Z2.MAX_MASK
    omega
  have h2 : c.map_to_row y ≤ Z2.MAX_MASK := by
    unfold Z2.MAX_MASK
    omega
  rw [if_pos ⟨h1, h2⟩]
  rfl

theorem C7_index_saturates_witness :
    (ZCurve2D.index ZCurve2D.default 0 0).isSome = true :=
  C7_index_saturates_amended ZCurve2D.default 0 0 (by decide) (by decide)
    (by norm_num [ZCurve2D.default]) (by norm_num [ZCurve2D.default])
    (by norm_num [ZCurve2D.default]) (by norm_num [ZCurve2D.default])
    (by norm_num [ZCurve2D.default]) (by norm_num [ZCurve2D.default])

theorem C7_index_saturates_counterexample :
    ZCurve2D.index ZCurve2D.default 1509949260 0 = none := by
  have hcol : ZCurve2D.map_to_col ZCurve2D.default 1509949260 = 2 ^ 32 - 1 := by
    unfold ZCurve2D.map_to_col ZCurve2D.ratToU32 ZCurve2D.cell_width
      ZCurve2D.default
    norm_num
  unfold ZCurve2D.index Z2.new
  rw [hcol, if_neg (fun hcon => absurd hcon.1 (by decide))]

/-- C9: `XZ2SFC::normalize` aborts exactly on an inverted or out-of-domain
box (its two `assert!`s), but `XZ3SFC::normalize` contains no assertion at
all: it accepts, for instance, the fully inverted out-of-order box
`(180, 90, 1000) - (-180, -90, 0)` on the WGS84 curve and returns the
reversed unit coordinates instead of aborting.  The claim's "the region
curves' normalise aborts" is therefore false for the 3D curve. -/
theorem C9_normalize_divergence :
    (∀ (c : XZ2SFC) (a b d e : ℚ),
      c.normalize a b d e = none ↔
        ¬ (a ≤ d ∧ b ≤ e) ∨
          ¬ (a ≥ c.x_min ∧ d ≤ c.x_max ∧ b ≥ c.y_min ∧ e ≤ c.y_max)) ∧
      XZ3SFC.normalize (XZ3SFC.wgs84 12 0 1000) 180 90 1000 (-180) (-90) 0
        = (1, 1, 1, 0, 0, 0) := by
  constructor
  · intro c a b d e
    unfold XZ2SFC.normalize
    split_ifs with h1 h2
    · simp [h1, h2]
    · simp [h1, h2]
    · simp [h1]
  · unfold XZ3SFC.normalize XZ3SFC.wgs84 XZ3SFC.x_size XZ3SFC.y_size XZ3SFC.z_size
    norm_num

/-- C6: in `XZ2SFC::index` the second predicate call tests the x axis
again — `predicate(nxmin, nxmax, w2) && predicate(nxmin, nxmax, w2)` — so
the y axis is never tested, contradicting the claimed "predicate on every
axis".  On the normalised box `(0, 3/8) - (1/8, 7/8)` (raw WGS84 box
`(-180, -22.5) - (-135, 67.5)` at g = 12) the depth `ℓ₁ + 1 = 2` is
selected although the y-axis predicate is false. -/
theorem C6_depth_predicate_divergence :
    (XZ2SFC.wgs84 12).index_length 0 (3 / 8) (1 / 8) (7 / 8) = 2 ∧
      XZ2SFC.predicate 0 (1 / 8) ((1 / 2 : ℚ) ^ (1 + 1)) = true ∧
      XZ2SFC.predicate (3 / 8) (7 / 8) ((1 / 2 : ℚ) ^ (1 + 1)) = false ∧
      (XZ2SFC.wgs84 12).normalize (-180) (-45 / 2) (-135) (135 / 2)
        = some (0, 3 / 8, 1 / 8, 7 / 8) := by
  have hfl : XZ2SFC.floorLogHalf (1 / 2) (12 + 1) = 1 := by
    rw [XZ2SFC.floorLogHalf, if_neg (by norm_num)]
    have h2 : (2 : ℚ) * (1 / 2) = 1 := by norm_num
    rw [h2, show (12 : ℕ) = 11 + 1 from rfl, XZ2SFC.floorLogHalf,
      if_pos (by norm_num)]
  have hpx : XZ2SFC.predicate 0 (1 / 8) ((1 / 2 : ℚ) ^ (1 + 1)) = true := by
    unfold XZ2SFC.predicate
    simp only [decide_eq_true_eq]
    norm_num
  have hpy : XZ2SFC.predicate (3 / 8) (7 / 8) ((1 / 2 : ℚ) ^ (1 + 1)) = false := by
    unfold XZ2SFC.predicate
    simp only [decide_eq_false_iff_not]
    norm_num
  refine ⟨?_, hpx, hpy, ?_⟩
  · simp only [XZ2SFC.index_length, XZ2SFC.wgs84]
    rw [show max ((1 : ℚ) / 8 - 0) (7 / 8 - 3 / 8) = 1 / 2 from by
      rw [max_eq_right (by norm_num)]; norm_num]
    rw [if_neg (by norm_num), hfl, if_neg (by norm_num), hpx, Bool.and_self,
      if_pos rfl]
  · rw [show ((-45 : ℚ) / 2) = -22.5 from by norm_num,
      show ((135 : ℚ) / 2) = 67.5 from by norm_num]
    unfold XZ2SFC.normalize XZ2SFC.wgs84 XZ2SFC.x_size XZ2SFC.y_size
    rw [if_pos (by norm_num), if_pos (by norm_num)]
    norm_num

/-- C10: the canonical covering query: resolution 1024 over
`[-180, 180] × [-90, 90]`, query box `(-80, 35) - (-75, 40)` with hint
`MaxRecurse(32)`, yields exactly 44 ranges, the first being
`(197616, 197631)` tagged covered. -/
theorem C10_canonical_query :
    ∃ out, ZCurve2D.ranges ZCurve2D.default (-80) 35 (-75) 40
        [RangeComputeHints.MaxRecurse 32] = some out ∧
      out.length = 44 ∧ out.head? = some ⟨197616, 197631, true⟩ := by
  have hca : ZCurve2D.map_to_col ZCurve2D.default (-80) = 284 := by
    unfold ZCurve2D.map_to_col ZCurve2D.ratToU32 ZCurve2D.cell_width
      ZCurve2D.default
    norm_num
    decide
  have hrb : ZCurve2D.map_to_row ZCurve2D.default 40 = 284 := by
    unfold ZCurve2D.map_to_row ZCurve2D.ratToU32 ZCurve2D.cell_height
      ZCurve2D.default
    norm_num
    decide
  have hcc : ZCurve2D.map_to_col ZCurve2D.default (-75) = 298 := by
    unfold ZCurve2D.map_to_col ZCurve2D.ratToU32 ZCurve2D.cell_width
      ZCurve2D.default
    norm_num
    decide
  have hrd : ZCurve2D.map_to_row ZCurve2D.default 35 = 312 := by
    unfold ZCurve2D.map_to_row ZCurve2D.ratToU32 ZCurve2D.cell_height
      ZCurve2D.default
    norm_num
    decide
  have hred : ZCurve2D.ranges ZCurve2D.default (-80) 35 (-75) 40
      [RangeComputeHints.MaxRecurse 32]
      = zranges Z2ops [⟨Z2.zOf 284 284, Z2.zOf 298 312⟩] 64 none (some 32) := by
    unfold ZCurve2D.ranges
    rw [hca, hrb, hcc, hrd,
      show Z2.new 284 284 = some (Z2.zOf 284 284) from by decide,
      show Z2.new 298 312 = some (Z2.zOf 298 312) from by decide]
    rfl
  have hkey : (zranges Z2ops [⟨Z2.zOf 284 284, Z2.zOf 298 312⟩] 64 none
      (some 32)).map
      (fun l => decide (l.length = 44 ∧ l.head? = some ⟨197616, 197631, true⟩))
      = some true := by decide
  cases heq : zranges Z2ops [⟨Z2.zOf 284 284, Z2.zOf 298 312⟩] 64 none (some 32)
      with
  | none =>
    rw [heq] at hkey
    simp at hkey
  | some out =>
    rw [heq, Option.map_some', Option.some.injEq] at hkey
    exact ⟨out, by rw [hred, heq], of_decide_eq_true hkey⟩

end SpaceTime
